import Mathlib

/-!
Verification development for the openr Prefix Manager.

The repository ships the Prefix Manager's test suite
(`src/openr/prefix-manager/tests/PrefixManagerTest.cpp`) but not the
implementation itself, so the state and the operations below are modelled
from the specification (`spec.md`) and checked against the concrete
behaviours exercised by the test suite.  Machine integers in the source
are versions and counters that never overflow in the scenarios specified,
so they are modelled as `Nat`.
-/

set_option maxHeartbeats 1000000

namespace OpenrPM

/-- Modelled from the spec: the closed enumeration of clients
(`PrefixType`) contributing entries; a lower numeric tag wins
(`LOOPBACK < DEFAULT < BGP < PREFIX_ALLOCATOR`). -/
inductive PrefixType where
  | LOOPBACK
  | DEFAULT
  | BGP
  | PREFIX_ALLOCATOR
  deriving DecidableEq

/-- Modelled from the spec: the fixed numeric priority tag of a client;
lower tag wins the arbitration for a shared IP network. -/
def PrefixType.priority : PrefixType → Nat
  | .LOOPBACK => 1
  | .DEFAULT => 2
  | .BGP => 3
  | .PREFIX_ALLOCATOR => 4

/-- Modelled from the spec: a `PrefixEntry` record.  The IP network is
abstracted to a `Nat` identifier (`pfx`); `fwdType` and `fwdAlgo` stand
for the forwarding metadata, and `ephemeral = true` marks an entry that
must not be persisted across restarts. -/
structure PrefixEntry where
  pfx : Nat
  client : PrefixType
  fwdType : Nat
  fwdAlgo : Nat
  ephemeral : Bool
  deriving DecidableEq

/-- Modelled from the spec: the Origin Table, mapping each IP network to
its `(client → entry)` contributions.  It is represented as a list of
entries in which each `(pfx, client)` pair occurs at most once. -/
abbrev OriginTable := List PrefixEntry

/-- The `(network, client)` key of an entry. -/
def entryKey (e : PrefixEntry) : Nat × PrefixType := (e.pfx, e.client)

/-- Well-formedness of an Origin Table: each `(network, client)` pair has
at most one contribution. -/
def WF (t : OriginTable) : Prop := (t.map entryKey).Nodup

/-- Modelled from the spec: look up the contribution of client `c` for
network `p` in the Origin Table. -/
def lookupEntry (p : Nat) (c : PrefixType) : OriginTable → Option PrefixEntry
  | [] => none
  | e :: t => if e.pfx = p ∧ e.client = c then some e else lookupEntry p c t

/-- Replace (in place) every entry carrying the key of `e` by `e`. -/
def replaceEntry (e : PrefixEntry) : OriginTable → OriginTable
  | [] => []
  | x :: t =>
    if x.pfx = e.pfx ∧ x.client = e.client then e :: replaceEntry e t
    else x :: replaceEntry e t

/-- Modelled from the spec: `advertise` inserts or replaces the
`(network, client)` contribution of a single entry. -/
def upsertEntry (t : OriginTable) (e : PrefixEntry) : OriginTable :=
  if (lookupEntry e.pfx e.client t).isSome then replaceEntry e t else t ++ [e]

/-- Modelled from the spec: remove the contribution of client `c` for
network `p`. -/
def removeKey (p : Nat) (c : PrefixType) (t : OriginTable) : OriginTable :=
  t.filter (fun x => !(decide (x.pfx = p ∧ x.client = c)))

/-- Modelled from the spec: `advertise(entries)` inserts or replaces each
`(network, entry.client)` contribution and reports whether the table
changed. -/
def addOrUpdatePrefixes (es : List PrefixEntry) (t : OriginTable) :
    Bool × OriginTable :=
  let t' := es.foldl upsertEntry t
  (decide (t' ≠ t), t')

/-- Every entry of the batch has a contribution under exactly the client
it names. -/
def allPresent (es : List PrefixEntry) (t : OriginTable) : Bool :=
  es.all (fun e => (lookupEntry e.pfx e.client t).isSome)

/-- Modelled from the spec and the behaviour pinned by the test suite
(`RemoveInvalidType`, `VerifyKvStoreMultipleClients`):
`withdraw(entries)` first verifies that every named `(network, client)`
pair is present; if any is missing the whole batch is rejected with no
change, otherwise every named contribution is removed. -/
def removePrefixes (es : List PrefixEntry) (t : OriginTable) :
    Bool × OriginTable :=
  if es.isEmpty then (false, t)
  else if allPresent es t then
    (true, es.foldl (fun acc e => removeKey e.pfx e.client acc) t)
  else (false, t)

/-- Modelled from the spec: `withdraw_by_client(c)` removes every
contribution of client `c` and reports whether anything was removed. -/
def removePrefixesByClient (c : PrefixType) (t : OriginTable) :
    Bool × OriginTable :=
  let t' := t.filter (fun x => !(decide (x.client = c)))
  (decide (t' ≠ t), t')

/-- Modelled from the spec: `sync_by_client(c, entries)` atomically
replaces the set of contributions of client `c` by the given entries. -/
def syncPrefixesByClient (c : PrefixType) (es : List PrefixEntry)
    (t : OriginTable) : Bool × OriginTable :=
  let t1 := es.foldl upsertEntry t
  let t2 := t1.filter (fun x =>
    !(decide (x.client = c) && !(es.any (fun e => decide (e.pfx = x.pfx)))))
  (decide (t2 ≠ t), t2)

/-- The contributions present for network `p`. -/
def entriesFor (p : Nat) (t : OriginTable) : List PrefixEntry :=
  t.filter (fun e => decide (e.pfx = p))

/-- Modelled from the spec: arbitration between two contributions — the
client with the lower priority tag wins. -/
def betterEntry (a b : PrefixEntry) : PrefixEntry :=
  if b.client.priority < a.client.priority then b else a

/-- Modelled from the spec: the winning entry for network `p`, i.e. the
contribution whose client has the lowest priority tag, if any client
contributes at all. -/
def winnerFor (t : OriginTable) (p : Nat) : Option PrefixEntry :=
  match entriesFor p t with
  | [] => none
  | e :: rest => some (rest.foldl betterEntry e)

/-- Modelled from the spec: `get_all()` — one winning entry per network
present in the table. -/
def getAllWinners (t : OriginTable) : List PrefixEntry :=
  ((t.map (fun e => e.pfx)).dedup).filterMap (winnerFor t)

/-- Modelled from the spec: the non-ephemeral projection of the Origin
Table — the subset serialized into the durable snapshot. -/
def nonEphemeralOf (t : OriginTable) : OriginTable :=
  t.filter (fun e => !e.ephemeral)

/-- Modelled from the spec: the record published into the replicated
store under a per-network key (`PrefixDatabase`): the carried entries and
the `deletePrefix` flag. -/
structure PubRecord where
  entries : List PrefixEntry
  deletePfx : Bool
  deriving DecidableEq

/-- Modelled from the spec: a value held by the replicated KV store — an
encoded record, its per-key version, and the remaining TTL (in abstract
time units). -/
structure StoreVal where
  record : PubRecord
  version : Nat
  ttl : Nat
  deriving DecidableEq

/-- Modelled from the spec: the Publication Engine's memory of the last
record it published for a key, with its version (`last_published`). -/
structure Intent where
  record : PubRecord
  version : Nat
  deriving DecidableEq

/-- Association-list lookup keyed by the abstract per-network key. -/
def alookup {α : Type} (k : Nat) : List (Nat × α) → Option α
  | [] => none
  | (k', v) :: rest => if k' = k then some v else alookup k rest

/-- Association-list update (in place, or appended when the key is new). -/
def aset {α : Type} (k : Nat) (v : α) : List (Nat × α) → List (Nat × α)
  | [] => [(k, v)]
  | (k', v') :: rest =>
    if k' = k then (k, v) :: rest else (k', v') :: aset k v rest

/-- Boolean membership of a key in a key list. -/
def natMem (p : Nat) (ks : List Nat) : Bool :=
  ks.any (fun q => decide (q = p))

/-- Modelled from the spec: the whole Prefix Manager state — the Origin
Table, the durable snapshot contents with the write counter (and, for
auditability, the log of physical snapshot writes), the publication
engine's `last_published` map, the replicated store contents, the dirty
flag, the remaining initial-hold time (in throttle windows) and the
configured key TTL. -/
structure PMState where
  table : OriginTable
  snapshot : OriginTable
  numWrites : Nat
  writeLog : List OriginTable
  pub : List (Nat × Intent)
  store : List (Nat × StoreVal)
  dirty : Bool
  holdRemaining : Nat
  keyTtl : Nat
  deriving DecidableEq

/-- Modelled from the spec: `save_if_dirty` — write the durable snapshot
(and bump the write counter) only when the non-ephemeral projection
differs from what is on disk. -/
def saveIfDirty (s : PMState) : PMState :=
  let pers := nonEphemeralOf s.table
  if pers = s.snapshot then s
  else { s with
          snapshot := pers
          numWrites := s.numWrites + 1
          writeLog := s.writeLog ++ [pers] }

/-- Install the result of an Origin Table mutation: set the table, mark
the publication state dirty when something changed, and run the
dirty-filtered snapshot save. -/
def applyTableOp (b : Bool) (t' : OriginTable) (s : PMState) : PMState :=
  saveIfDirty { s with table := t', dirty := s.dirty || b }

/-- Modelled from the spec: the direct-method `advertise` of the Prefix
Manager. -/
def advertisePrefixes (es : List PrefixEntry) (s : PMState) : Bool × PMState :=
  let r := addOrUpdatePrefixes es s.table
  (r.1, applyTableOp r.1 r.2 s)

/-- Modelled from the spec: the direct-method `withdraw` of the Prefix
Manager. -/
def withdrawPrefixes (es : List PrefixEntry) (s : PMState) : Bool × PMState :=
  let r := removePrefixes es s.table
  (r.1, applyTableOp r.1 r.2 s)

/-- Modelled from the spec: the direct-method `withdraw_by_type` of the
Prefix Manager. -/
def withdrawPrefixesByClient (c : PrefixType) (s : PMState) : Bool × PMState :=
  let r := removePrefixesByClient c s.table
  (r.1, applyTableOp r.1 r.2 s)

/-- Modelled from the spec: the direct-method `sync_by_type` of the
Prefix Manager. -/
def syncPrefixesByClientM (c : PrefixType) (es : List PrefixEntry)
    (s : PMState) : Bool × PMState :=
  let r := syncPrefixesByClient c es s.table
  (r.1, applyTableOp r.1 r.2 s)

/-- An Origin Table mutation request (the Request Intake commands). -/
inductive MgrOp where
  | advertise (es : List PrefixEntry)
  | withdraw (es : List PrefixEntry)
  | withdrawByClient (c : PrefixType)
  | syncByClient (c : PrefixType) (es : List PrefixEntry)
  deriving DecidableEq

/-- Apply an intake command to the manager state. -/
def applyOp : MgrOp → PMState → PMState
  | .advertise es, s => (advertisePrefixes es s).2
  | .withdraw es, s => (withdrawPrefixes es s).2
  | .withdrawByClient c, s => (withdrawPrefixesByClient c s).2
  | .syncByClient c es, s => (syncPrefixesByClientM c es s).2

/-- The Origin Table reached by one intake command. -/
def opTable : MgrOp → OriginTable → OriginTable
  | .advertise es, t => (addOrUpdatePrefixes es t).2
  | .withdraw es, t => (removePrefixes es t).2
  | .withdrawByClient c, t => (removePrefixesByClient c t).2
  | .syncByClient c es, t => (syncPrefixesByClient c es t).2

/-- The version of an optional published intent (`0` when the key was
never published). -/
def intentVersion : Option Intent → Nat
  | none => 0
  | some i => i.version

/-- Modelled from the spec: the Publication Engine's per-key
reconciliation when the throttle timer fires.  For a key whose network
still has a winning entry the engine upserts the winner (at version
`max(last_published, observed store version) + 1`, i.e. version 1 for a
fresh key) unless the store already carries exactly the intended record.
For a withdrawn network it publishes the delete-marker — the last-known
entries flagged `deletePrefix = true` — with a bumped version, and lets
an already-published marker TTL out without re-asserting it.  Returns
the new store value and new intent for the key. -/
def tickKey (s : PMState) (p : Nat) : Option StoreVal × Option Intent :=
  let cur := alookup p s.store
  let it := alookup p s.pub
  match winnerFor s.table p with
  | some w =>
    let r : PubRecord := ⟨[w], false⟩
    match cur with
    | some sv =>
      if sv.record = r then (some sv, it)
      else
        let v := max (intentVersion it) sv.version + 1
        (some ⟨r, v, s.keyTtl⟩, some ⟨r, v⟩)
    | none =>
      let v := intentVersion it + 1
      (some ⟨r, v, s.keyTtl⟩, some ⟨r, v⟩)
  | none =>
    match it with
    | none => (cur, none)
    | some i =>
      let r : PubRecord := ⟨i.record.entries, true⟩
      match cur with
      | some sv =>
        if sv.record = r then (some sv, some i)
        else
          let v := max i.version sv.version + 1
          (some ⟨r, v, s.keyTtl⟩, some ⟨r, v⟩)
      | none => (none, some i)

/-- The keys the Publication Engine is responsible for: everything it has
published plus every network present in the Origin Table. -/
def relevantKeys (s : PMState) : List Nat :=
  (s.pub.map Prod.fst ++ s.table.map PrefixEntry.pfx).dedup

/-- Modelled from the spec: one firing of the throttled publication
timer.  While the initial hold timer is active the firing only lets hold
time elapse — no publication occurs and the dirty flag remains.  Once
hold has expired the engine reconciles every relevant key against the
Origin Table's winning state and clears the dirty flag. -/
def tick (s : PMState) : PMState :=
  if 0 < s.holdRemaining then { s with holdRemaining := s.holdRemaining - 1 }
  else
    let ks := relevantKeys s
    { s with
      store := ks.filterMap (fun p => (tickKey s p).1.map (fun sv => (p, sv)))
                ++ s.store.filter (fun kv => !(natMem kv.1 ks)),
      pub := ks.filterMap (fun p => (tickKey s p).2.map (fun i => (p, i))),
      dirty := false }

/-- Whether the store client keeps a key alive: it refreshes the TTL of
keys the engine still holds with a live (non-delete-marker) record. -/
def refreshable (s : PMState) (p : Nat) (sv : StoreVal) : Bool :=
  match alookup p s.pub with
  | some i => !i.record.deletePfx && decide (sv.record = i.record)
  | none => false

/-- One abstract time unit elapsing for a single store value: a held key
is TTL-refreshed, any other key counts down and expires at zero. -/
def elapseVal (s : PMState) (k : Nat) (sv : StoreVal) : Option StoreVal :=
  if refreshable s k sv then some { sv with ttl := s.keyTtl }
  else if sv.ttl ≤ 1 then none
  else some { sv with ttl := sv.ttl - 1 }

/-- Modelled from the spec: one abstract time unit elapsing in the
replicated store — held keys are TTL-refreshed, all other keys (in
particular published delete-markers) count down and expire. -/
def elapse (s : PMState) : PMState :=
  { s with
    store := s.store.filterMap
      (fun kv => (elapseVal s kv.1 kv.2).map (fun v => (kv.1, v))) }

/-- Iterated elapsing of store time. -/
def elapseN : Nat → PMState → PMState
  | 0, s => s
  | n + 1, s => elapseN n (elapse s)

/-- An externally observable event: an intake command, a throttle-timer
firing, or store time elapsing. -/
inductive Event where
  | intake (op : MgrOp)
  | tickEv
  | elapseEv
  deriving DecidableEq

/-- Run a sequence of events against the manager state. -/
def runEvents : List Event → PMState → PMState
  | [], s => s
  | .intake op :: evs, s => runEvents evs (applyOp op s)
  | .tickEv :: evs, s => runEvents evs (tick s)
  | .elapseEv :: evs, s => runEvents evs (elapse s)

/-- The number of throttle-timer firings in an event sequence. -/
def tickCount : List Event → Nat
  | [] => 0
  | .tickEv :: evs => tickCount evs + 1
  | _ :: evs => tickCount evs

/-- The intake commands of an event sequence, in order. -/
def intakeOnly : List Event → List Event
  | [] => []
  | .intake op :: evs => .intake op :: intakeOnly evs
  | _ :: evs => intakeOnly evs

/-- Modelled from the spec: a freshly constructed Prefix Manager against
an empty durable store — empty Origin Table and snapshot, hold timer
armed, dirty set. -/
def initState (h ttl : Nat) : PMState :=
  { table := [], snapshot := [], numWrites := 0, writeLog := [], pub := [],
    store := [], dirty := true, holdRemaining := h, keyTtl := ttl }

/-- Modelled from the spec: reading the durable snapshot on start-up —
only non-ephemeral entries are loaded, any ephemeral entries that were
somehow persisted are discarded. -/
def loadSnapshot (snap : OriginTable) : OriginTable :=
  snap.filter (fun e => !e.ephemeral)

/-- Modelled from the spec: stopping the manager and starting a new one
against the same durable config store and replicated store — the Origin
Table is seeded from the snapshot, publication state starts fresh, the
hold timer is re-armed. -/
def restart (s : PMState) (h : Nat) : PMState :=
  { table := loadSnapshot s.snapshot, snapshot := s.snapshot,
    numWrites := s.numWrites, writeLog := s.writeLog, pub := [],
    store := s.store, dirty := true, holdRemaining := h, keyTtl := s.keyTtl }

/-- The store keys (or published keys) are pairwise distinct. -/
def keysNodup {α : Type} (l : List (Nat × α)) : Prop :=
  (l.map Prod.fst).Nodup

/-- A sample persistent DEFAULT-client entry (mirrors `prefixEntry1`). -/
def entryP1 : PrefixEntry := ⟨1, .DEFAULT, 0, 0, false⟩

/-- A sample persistent PREFIX_ALLOCATOR-client entry (mirrors
`prefixEntry2`). -/
def entryP2 : PrefixEntry := ⟨2, .PREFIX_ALLOCATOR, 0, 0, false⟩

/-- A sample ephemeral BGP-client entry (mirrors
`ephemeralPrefixEntry9`). -/
def entryE9 : PrefixEntry := ⟨9, .BGP, 0, 0, true⟩

/-- A sample persistent BGP-client entry (mirrors
`persistentPrefixEntry9`). -/
def entryB9 : PrefixEntry := ⟨9, .BGP, 0, 0, false⟩

/-- A sample Origin Table with BGP, LOOPBACK and DEFAULT contributions
for the same network (mirrors `VerifyKvStoreMultipleClients`). -/
def tbl4 : OriginTable :=
  [⟨1, .BGP, 0, 0, false⟩, ⟨1, .LOOPBACK, 0, 0, false⟩,
    ⟨1, .DEFAULT, 0, 0, false⟩]

/-- A manager state holding `tbl4` with hold expired and nothing yet
published. -/
def st4 : PMState :=
  { table := tbl4, snapshot := [], numWrites := 0, writeLog := [], pub := [],
    store := [], dirty := true, holdRemaining := 0, keyTtl := 5 }

/-- The manager state reached by advertising a first entry, publishing
it, then advertising a second entry (mirrors `PrefixKeyUpdates`). -/
def st7 : PMState :=
  runEvents
    [.intake (.advertise [entryP1]), .tickEv, .intake (.advertise [entryP2])]
    (initState 0 5)

/-- The manager state with two entries advertised and published under a
short key TTL (mirrors `PrefixWithdrawExpiry`). -/
def st6 : PMState :=
  runEvents
    [.intake (.advertise [entryP1]), .intake (.advertise [entryP2]), .tickEv]
    (initState 0 2)

/-! ### Basic lemmas about the Origin Table operations -/

theorem lookupEntry_eq_none_iff {p : Nat} {c : PrefixType} {t : OriginTable} :
    lookupEntry p c t = none ↔ ∀ e ∈ t, ¬(e.pfx = p ∧ e.client = c) := by
  induction t with
  | nil => simp [lookupEntry]
  | cons x t ih =>
    by_cases h : x.pfx = p ∧ x.client = c
    · simp [lookupEntry, h]
    · simp only [lookupEntry, if_neg h, ih, List.mem_cons]
      constructor
      · intro hall e he
        rcases he with rfl | he
        · exact h
        · exact hall e he
      · intro hall e he
        exact hall e (Or.inr he)

theorem lookupEntry_mem {p : Nat} {c : PrefixType} {t : OriginTable}
    {e : PrefixEntry} (h : lookupEntry p c t = some e) :
    e ∈ t ∧ e.pfx = p ∧ e.client = c := by
  induction t with
  | nil => simp [lookupEntry] at h
  | cons x t ih =>
    by_cases hx : x.pfx = p ∧ x.client = c
    · simp only [lookupEntry, if_pos hx, Option.some.injEq] at h
      subst h
      exact ⟨List.mem_cons_self _ _, hx⟩
    · simp only [lookupEntry, if_neg hx] at h
      rcases ih h with ⟨hm, hk⟩
      exact ⟨List.mem_cons_of_mem _ hm, hk⟩

theorem lookupEntry_isSome_iff {p : Nat} {c : PrefixType} {t : OriginTable} :
    (lookupEntry p c t).isSome = true ↔ ∃ e ∈ t, e.pfx = p ∧ e.client = c := by
  constructor
  · intro h
    rcases Option.isSome_iff_exists.mp h with ⟨e, he⟩
    rcases lookupEntry_mem he with ⟨hm, hk⟩
    exact ⟨e, hm, hk⟩
  · intro h
    cases heq : lookupEntry p c t with
    | some e => rfl
    | none =>
      rcases h with ⟨e, hm, hk⟩
      exact absurd hk (lookupEntry_eq_none_iff.mp heq e hm)

theorem lookupEntry_append (p : Nat) (c : PrefixType) (t₁ t₂ : OriginTable) :
    lookupEntry p c (t₁ ++ t₂) =
      match lookupEntry p c t₁ with
      | some e => some e
      | none => lookupEntry p c t₂ := by
  induction t₁ with
  | nil => simp [lookupEntry]
  | cons x t ih =>
    by_cases hx : x.pfx = p ∧ x.client = c
    · simp [lookupEntry, hx]
    · simp [lookupEntry, hx, ih]

theorem replaceEntry_map_key (e : PrefixEntry) (t : OriginTable) :
    (replaceEntry e t).map entryKey = t.map entryKey := by
  induction t with
  | nil => rfl
  | cons x t ih =>
    by_cases h : x.pfx = e.pfx ∧ x.client = e.client
    · simp only [replaceEntry, if_pos h, List.map_cons, ih]
      rw [show entryKey e = entryKey x by simp [entryKey, h.1, h.2]]
    · simp [replaceEntry, h, ih]

theorem replaceEntry_of_absent {e : PrefixEntry} {t : OriginTable}
    (h : ∀ x ∈ t, ¬(x.pfx = e.pfx ∧ x.client = e.client)) :
    replaceEntry e t = t := by
  induction t with
  | nil => rfl
  | cons x t ih =>
    have hx := h x (List.mem_cons_self _ _)
    simp only [replaceEntry, if_neg hx]
    rw [ih (fun y hy => h y (List.mem_cons_of_mem _ hy))]

theorem lookup_replaceEntry_self {e : PrefixEntry} {t : OriginTable}
    (h : (lookupEntry e.pfx e.client t).isSome = true) :
    lookupEntry e.pfx e.client (replaceEntry e t) = some e := by
  induction t with
  | nil => simp [lookupEntry] at h
  | cons x t ih =>
    by_cases hx : x.pfx = e.pfx ∧ x.client = e.client
    · simp [replaceEntry, hx, lookupEntry]
    · simp only [replaceEntry, if_neg hx, lookupEntry, if_neg hx]
      apply ih
      simpa [lookupEntry, hx] using h

theorem lookup_replaceEntry_other {p : Nat} {c : PrefixType}
    {a : PrefixEntry} {t : OriginTable} (h : ¬(a.pfx = p ∧ a.client = c)) :
    lookupEntry p c (replaceEntry a t) = lookupEntry p c t := by
  induction t with
  | nil => rfl
  | cons x t ih =>
    by_cases hx : x.pfx = a.pfx ∧ x.client = a.client
    · have hxpc : ¬(x.pfx = p ∧ x.client = c) := by
        rw [hx.1, hx.2]; exact h
      simp only [replaceEntry, if_pos hx, lookupEntry, if_neg h, if_neg hxpc]
      exact ih
    · simp only [replaceEntry, if_neg hx, lookupEntry]
      by_cases hxpc : x.pfx = p ∧ x.client = c
      · simp [hxpc]
      · simp only [if_neg hxpc]
        exact ih

theorem lookup_upsert_self (t : OriginTable) (e : PrefixEntry) :
    lookupEntry e.pfx e.client (upsertEntry t e) = some e := by
  unfold upsertEntry
  by_cases h : (lookupEntry e.pfx e.client t).isSome = true
  · rw [if_pos h]
    exact lookup_replaceEntry_self h
  · rw [if_neg h, lookupEntry_append]
    rw [Option.not_isSome_iff_eq_none] at h
    rw [h]
    simp [lookupEntry]

theorem lookup_upsert_other {p : Nat} {c : PrefixType} {a : PrefixEntry}
    {t : OriginTable} (h : ¬(a.pfx = p ∧ a.client = c)) :
    lookupEntry p c (upsertEntry t a) = lookupEntry p c t := by
  unfold upsertEntry
  by_cases hs : (lookupEntry a.pfx a.client t).isSome = true
  · rw [if_pos hs]
    exact lookup_replaceEntry_other h
  · rw [if_neg hs, lookupEntry_append]
    cases heq : lookupEntry p c t with
    | some e => rfl
    | none => simp [lookupEntry, h]

theorem key_not_mem_of_lookup_none {e : PrefixEntry} {t : OriginTable}
    (h : lookupEntry e.pfx e.client t = none) :
    entryKey e ∉ t.map entryKey := by
  intro hmem
  rcases List.mem_map.mp hmem with ⟨x, hx, hkey⟩
  have h1 : x.pfx = e.pfx := congrArg Prod.fst hkey
  have h2 : x.client = e.client := congrArg Prod.snd hkey
  exact lookupEntry_eq_none_iff.mp h x hx ⟨h1, h2⟩

theorem WF_upsert {t : OriginTable} (e : PrefixEntry) (h : WF t) :
    WF (upsertEntry t e) := by
  unfold upsertEntry
  by_cases hs : (lookupEntry e.pfx e.client t).isSome = true
  · rw [if_pos hs]
    unfold WF
    rw [replaceEntry_map_key]
    exact h
  · rw [if_neg hs]
    unfold WF
    rw [List.map_append]
    rw [Option.not_isSome_iff_eq_none] at hs
    refine List.nodup_append.mpr ⟨h, List.nodup_singleton _, ?_⟩
    intro k hk hk'
    simp only [List.map_cons, List.map_nil, List.mem_singleton] at hk'
    subst hk'
    exact key_not_mem_of_lookup_none hs hk

theorem WF_foldl_upsert {es : List PrefixEntry} {t : OriginTable}
    (h : WF t) : WF (es.foldl upsertEntry t) := by
  induction es generalizing t with
  | nil => exact h
  | cons a es ih => exact ih (WF_upsert a h)

theorem WF_filter {t : OriginTable} (p : PrefixEntry → Bool) (h : WF t) :
    WF (t.filter p) :=
  List.Nodup.sublist (List.Sublist.map entryKey (List.filter_sublist _)) h

theorem upsert_of_lookup_self {t : OriginTable} {e : PrefixEntry}
    (hwf : WF t) (h : lookupEntry e.pfx e.client t = some e) :
    upsertEntry t e = t := by
  unfold upsertEntry
  rw [if_pos (by rw [h]; rfl)]
  induction t with
  | nil => simp [lookupEntry] at h
  | cons x t ih =>
    rcases List.nodup_cons.mp hwf with ⟨hxnot, hwft⟩
    by_cases hx : x.pfx = e.pfx ∧ x.client = e.client
    · simp only [lookupEntry, if_pos hx, Option.some.injEq] at h
      subst h
      have habs : replaceEntry x t = t := by
        apply replaceEntry_of_absent
        intro y hy hmatch
        refine hxnot ?_
        rw [show entryKey x = entryKey y by
          simp [entryKey, hmatch.1, hmatch.2]]
        exact List.mem_map_of_mem entryKey hy
      simp [replaceEntry, habs]
    · simp only [lookupEntry, if_neg hx] at h
      simp only [replaceEntry, if_neg hx]
      rw [ih hwft h]

theorem foldl_upsert_id {es : List PrefixEntry} {u : OriginTable}
    (hwf : WF u) (h : ∀ e ∈ es, lookupEntry e.pfx e.client u = some e) :
    es.foldl upsertEntry u = u := by
  induction es with
  | nil => rfl
  | cons a es ih =>
    rw [List.foldl_cons, upsert_of_lookup_self hwf (h a (List.mem_cons_self _ _))]
    exact ih (fun e he => h e (List.mem_cons_of_mem _ he))

theorem lookup_foldl_upsert_not_mem {es : List PrefixEntry} {t : OriginTable}
    {p : Nat} {c : PrefixType}
    (h : ∀ e ∈ es, ¬(e.pfx = p ∧ e.client = c)) :
    lookupEntry p c (es.foldl upsertEntry t) = lookupEntry p c t := by
  induction es generalizing t with
  | nil => rfl
  | cons a es ih =>
    rw [List.foldl_cons, ih (fun e he => h e (List.mem_cons_of_mem _ he)),
      lookup_upsert_other (h a (List.mem_cons_self _ _))]

theorem lookup_foldl_upsert_self {es : List PrefixEntry} {t : OriginTable}
    (hnd : (es.map entryKey).Nodup) :
    ∀ e ∈ es, lookupEntry e.pfx e.client (es.foldl upsertEntry t) = some e := by
  induction es generalizing t with
  | nil => intro e he; cases he
  | cons a es ih =>
    rcases List.nodup_cons.mp hnd with ⟨hanot, hndes⟩
    intro e he
    rw [List.foldl_cons]
    rcases List.mem_cons.mp he with rfl | he'
    · rw [lookup_foldl_upsert_not_mem, lookup_upsert_self]
      intro x hx hmatch
      refine hanot ?_
      rw [show entryKey e = entryKey x by simp [entryKey, hmatch.1, hmatch.2]]
      exact List.mem_map_of_mem entryKey hx
    · exact ih hndes e he'

theorem lookup_filter_none {p : Nat} {c : PrefixType} {t : OriginTable}
    {q : PrefixEntry → Bool} (h : lookupEntry p c t = none) :
    lookupEntry p c (t.filter q) = none := by
  rw [lookupEntry_eq_none_iff] at h ⊢
  intro e he
  exact h e (List.mem_of_mem_filter he)

theorem lookup_removeKey_self (p : Nat) (c : PrefixType) (t : OriginTable) :
    lookupEntry p c (removeKey p c t) = none := by
  rw [lookupEntry_eq_none_iff]
  intro e he hmatch
  have hq := List.of_mem_filter he
  simp [hmatch.1, hmatch.2] at hq

theorem lookup_foldl_remove_none {es : List PrefixEntry} {t : OriginTable}
    {p : Nat} {c : PrefixType} (h : lookupEntry p c t = none) :
    lookupEntry p c
      (es.foldl (fun acc x => removeKey x.pfx x.client acc) t) = none := by
  induction es generalizing t with
  | nil => exact h
  | cons a es ih =>
    rw [List.foldl_cons]
    exact ih (lookup_filter_none h)

theorem lookup_foldl_remove_mem {es : List PrefixEntry} {t : OriginTable}
    {e : PrefixEntry} (he : e ∈ es) :
    lookupEntry e.pfx e.client
      (es.foldl (fun acc x => removeKey x.pfx x.client acc) t) = none := by
  induction es generalizing t with
  | nil => cases he
  | cons a es ih =>
    rw [List.foldl_cons]
    rcases List.mem_cons.mp he with rfl | he'
    · exact lookup_foldl_remove_none (lookup_removeKey_self _ _ _)
    · exact ih he'

/-! ### Winner arbitration lemmas -/

theorem foldl_better_mem (es : List PrefixEntry) (a : PrefixEntry) :
    es.foldl betterEntry a = a ∨ es.foldl betterEntry a ∈ es := by
  induction es generalizing a with
  | nil => exact Or.inl rfl
  | cons b es ih =>
    rw [List.foldl_cons]
    rcases ih (betterEntry a b) with h | h
    · by_cases hb : b.client.priority < a.client.priority
      · refine Or.inr ?_
        rw [h, betterEntry, if_pos hb]
        exact List.mem_cons_self _ _
      · refine Or.inl ?_
        rw [h, betterEntry, if_neg hb]
    · exact Or.inr (List.mem_cons_of_mem _ h)

theorem foldl_better_le (es : List PrefixEntry) (a : PrefixEntry) :
    (es.foldl betterEntry a).client.priority ≤ a.client.priority ∧
      ∀ e ∈ es, (es.foldl betterEntry a).client.priority ≤ e.client.priority := by
  induction es generalizing a with
  | nil =>
    refine ⟨Nat.le_refl _, ?_⟩
    intro e he
    cases he
  | cons b es ih =>
    rw [List.foldl_cons]
    rcases ih (betterEntry a b) with ⟨h1, h2⟩
    have hab : (betterEntry a b).client.priority ≤ a.client.priority ∧
        (betterEntry a b).client.priority ≤ b.client.priority := by
      unfold betterEntry
      by_cases hb : b.client.priority < a.client.priority
      · rw [if_pos hb]
        exact ⟨Nat.le_of_lt hb, Nat.le_refl _⟩
      · rw [if_neg hb]
        exact ⟨Nat.le_refl _, Nat.le_of_not_lt hb⟩
    refine ⟨Nat.le_trans h1 hab.1, ?_⟩
    intro e he
    rcases List.mem_cons.mp he with rfl | he'
    · exact Nat.le_trans h1 hab.2
    · exact h2 e he'

theorem mem_entriesFor {p : Nat} {t : OriginTable} {e : PrefixEntry} :
    e ∈ entriesFor p t ↔ e ∈ t ∧ e.pfx = p := by
  unfold entriesFor
  simp [List.mem_filter]

theorem winnerFor_spec {t : OriginTable} {p : Nat} {w : PrefixEntry}
    (h : winnerFor t p = some w) :
    w ∈ t ∧ w.pfx = p ∧
      ∀ e ∈ t, e.pfx = p → w.client.priority ≤ e.client.priority := by
  unfold winnerFor at h
  cases heq : entriesFor p t with
  | nil =>
    rw [heq] at h
    exact absurd h (by simp)
  | cons a rest =>
    rw [heq] at h
    have hw : w = rest.foldl betterEntry a := by
      injection h with h
      exact h.symm
    have hmemEF : w ∈ entriesFor p t := by
      rw [heq]
      rcases foldl_better_mem rest a with hm | hm
      · rw [hw, hm]
        exact List.mem_cons_self _ _
      · rw [hw]
        exact List.mem_cons_of_mem _ hm
    have hWT := mem_entriesFor.mp hmemEF
    refine ⟨hWT.1, hWT.2, ?_⟩
    intro e he hep
    have heEF : e ∈ entriesFor p t := mem_entriesFor.mpr ⟨he, hep⟩
    rw [heq] at heEF
    rcases foldl_better_le rest a with ⟨h1, h2⟩
    rcases List.mem_cons.mp heEF with rfl | he'
    · rw [hw]
      exact h1
    · rw [hw]
      exact h2 e he'

theorem winnerFor_isSome {t : OriginTable} {e : PrefixEntry} (he : e ∈ t) :
    (winnerFor t e.pfx).isSome = true := by
  unfold winnerFor
  cases heq : entriesFor e.pfx t with
  | nil =>
    have hm : e ∈ entriesFor e.pfx t := mem_entriesFor.mpr ⟨he, rfl⟩
    rw [heq] at hm
    cases hm
  | cons a rest => rfl

theorem winner_mem_getAllWinners {t : OriginTable} {p : Nat} {w : PrefixEntry}
    (hw : winnerFor t p = some w) : w ∈ getAllWinners t := by
  unfold getAllWinners
  apply List.mem_filterMap.mpr
  refine ⟨p, ?_, hw⟩
  rw [List.mem_dedup]
  rcases winnerFor_spec hw with ⟨hmem, hpfx, _⟩
  exact hpfx ▸ List.mem_map_of_mem _ hmem

theorem entriesFor_filter (p : Nat) (q : PrefixEntry → Bool) (t : OriginTable) :
    entriesFor p (t.filter q) = (entriesFor p t).filter q := by
  unfold entriesFor
  induction t with
  | nil => rfl
  | cons x t ih =>
    by_cases hq : q x
    · by_cases hp : x.pfx = p
      · simp [List.filter_cons, hq, hp, ih]
      · simp [List.filter_cons, hq, hp, ih]
    · have hq' : q x = false := by simpa using hq
      by_cases hp : x.pfx = p
      · simp [List.filter_cons, hq', hp, ih]
      · simp [List.filter_cons, hq', hp, ih]

theorem winnerFor_filter_keep {p : Nat} {q : PrefixEntry → Bool}
    {t : OriginTable} (h : ∀ e ∈ t, e.pfx = p → q e = true) :
    winnerFor (t.filter q) p = winnerFor t p := by
  unfold winnerFor
  rw [entriesFor_filter, List.filter_eq_self.mpr]
  intro e he
  rcases mem_entriesFor.mp he with ⟨het, hep⟩
  exact h e het hep

/-! ### Association-list lemmas for the engine state -/

theorem natMem_iff {p : Nat} {ks : List Nat} : natMem p ks = true ↔ p ∈ ks := by
  unfold natMem
  rw [List.any_eq_true]
  constructor
  · rintro ⟨q, hq, hd⟩
    have hqp : q = p := of_decide_eq_true hd
    exact hqp ▸ hq
  · intro h
    exact ⟨p, h, by simp⟩

theorem alookup_aset_self {α : Type} (k : Nat) (v : α) (l : List (Nat × α)) :
    alookup k (aset k v l) = some v := by
  induction l with
  | nil => simp [aset, alookup]
  | cons kv rest ih =>
    rcases kv with ⟨k', v'⟩
    by_cases h : k' = k
    · simp [aset, h, alookup]
    · simp [aset, h, alookup, ih]

theorem alookup_aset_other {α : Type} {k q : Nat} (v : α) (l : List (Nat × α))
    (h : k ≠ q) : alookup q (aset k v l) = alookup q l := by
  induction l with
  | nil => simp [aset, alookup, h]
  | cons kv rest ih =>
    rcases kv with ⟨k', v'⟩
    by_cases hk : k' = k
    · subst hk
      simp [aset, alookup, h, Ne.symm h]
    · by_cases hq : k' = q
      · simp [aset, hk, alookup, hq, Ne.symm h]
      · simp [aset, hk, alookup, hq, ih]

theorem alookup_eq_none_iff {α : Type} {k : Nat} {l : List (Nat × α)} :
    alookup k l = none ↔ ∀ kv ∈ l, kv.1 ≠ k := by
  induction l with
  | nil => simp [alookup]
  | cons kv rest ih =>
    rcases kv with ⟨k', v'⟩
    by_cases h : k' = k
    · simp [alookup, h]
    · simp [alookup, h, ih]

theorem alookup_isSome_mem_keys {α : Type} {k : Nat} {l : List (Nat × α)}
    {v : α} (h : alookup k l = some v) : k ∈ l.map Prod.fst := by
  induction l with
  | nil => cases h
  | cons kv rest ih =>
    rcases kv with ⟨k', v'⟩
    by_cases hk : k' = k
    · simp [hk]
    · rw [alookup, if_neg hk] at h
      exact List.mem_cons_of_mem _ (ih h)

theorem alookup_append {α : Type} (k : Nat) (l₁ l₂ : List (Nat × α)) :
    alookup k (l₁ ++ l₂) =
      match alookup k l₁ with
      | some v => some v
      | none => alookup k l₂ := by
  induction l₁ with
  | nil => simp [alookup]
  | cons kv rest ih =>
    rcases kv with ⟨k', v'⟩
    by_cases h : k' = k
    · simp [alookup, h]
    · simp [alookup, h, ih]

theorem alookup_filterMap_dedupKeys {α : Type} (g : Nat → Option α)
    {ks : List Nat} (hnd : ks.Nodup) (p : Nat) :
    alookup p (ks.filterMap (fun q => (g q).map (fun v => (q, v)))) =
      if p ∈ ks then g p else none := by
  induction ks with
  | nil => simp [alookup]
  | cons k ks ih =>
    rcases List.nodup_cons.mp hnd with ⟨hknot, hnd'⟩
    rw [List.filterMap_cons]
    cases hg : g k with
    | none =>
      rw [Option.map_none', ih hnd']
      by_cases hp : p = k
      · subst hp
        simp [hknot, hg]
      · simp [hp]
    | some v =>
      rw [Option.map_some']
      rw [show alookup p ((k, v) :: ks.filterMap
            (fun q => (g q).map (fun v => (q, v)))) =
          if k = p then some v
          else alookup p (ks.filterMap (fun q => (g q).map (fun v => (q, v))))
          from rfl]
      by_cases hp : k = p
      · subst hp
        simp [hg]
      · rw [if_neg hp, ih hnd']
        have hmem : (p ∈ k :: ks) ↔ p ∈ ks := by
          constructor
          · intro h
            rcases List.mem_cons.mp h with rfl | h
            · exact absurd rfl hp
            · exact h
          · exact List.mem_cons_of_mem _
        by_cases hks : p ∈ ks
        · rw [if_pos hks, if_pos (hmem.mpr hks)]
        · rw [if_neg hks, if_neg (fun hc => hks (hmem.mp hc))]

theorem alookup_filter_mem_keys {α : Type} {p : Nat} {ks : List Nat}
    (l : List (Nat × α)) (h : p ∈ ks) :
    alookup p (l.filter (fun kv => !(natMem kv.1 ks))) = none := by
  rw [alookup_eq_none_iff]
  intro kv hkv hkp
  have hq := List.of_mem_filter hkv
  rw [hkp, Bool.not_eq_true'] at hq
  rw [show natMem p ks = true from natMem_iff.mpr h] at hq
  cases hq

theorem alookup_filter_not_mem_keys {α : Type} {p : Nat} {ks : List Nat}
    (l : List (Nat × α)) (h : p ∉ ks) :
    alookup p (l.filter (fun kv => !(natMem kv.1 ks))) = alookup p l := by
  induction l with
  | nil => rfl
  | cons kv rest ih =>
    rcases kv with ⟨k', v'⟩
    by_cases hk : k' = p
    · subst hk
      have hnm : natMem k' ks = false := by
        by_contra hc
        exact h (natMem_iff.mp (by simpa using hc))
      simp [List.filter_cons, hnm, alookup, ih]
    · by_cases hmem : natMem k' ks = true
      · simp [List.filter_cons, hmem, alookup, hk, ih]
      · have hnm : natMem k' ks = false := by simpa using hmem
        simp [List.filter_cons, hnm, alookup, hk, ih]

/-! ### State-projection lemmas for the engine steps -/

theorem saveIfDirty_fields (s : PMState) :
    (saveIfDirty s).table = s.table ∧ (saveIfDirty s).pub = s.pub ∧
      (saveIfDirty s).store = s.store ∧ (saveIfDirty s).dirty = s.dirty ∧
      (saveIfDirty s).holdRemaining = s.holdRemaining ∧
      (saveIfDirty s).keyTtl = s.keyTtl := by
  unfold saveIfDirty
  by_cases h : nonEphemeralOf s.table = s.snapshot
  · simp [h]
  · simp [h]

theorem applyTableOp_fields (b : Bool) (t' : OriginTable) (s : PMState) :
    (applyTableOp b t' s).table = t' ∧ (applyTableOp b t' s).pub = s.pub ∧
      (applyTableOp b t' s).store = s.store ∧
      (applyTableOp b t' s).holdRemaining = s.holdRemaining ∧
      (applyTableOp b t' s).keyTtl = s.keyTtl := by
  unfold applyTableOp
  rcases saveIfDirty_fields { s with table := t', dirty := s.dirty || b } with
    ⟨h1, h2, h3, _, h5, h6⟩
  exact ⟨h1, h2, h3, h5, h6⟩

theorem applyOp_pub (op : MgrOp) (s : PMState) : (applyOp op s).pub = s.pub := by
  cases op <;>
    simp [applyOp, advertisePrefixes, withdrawPrefixes,
      withdrawPrefixesByClient, syncPrefixesByClientM,
      (applyTableOp_fields _ _ _).2.1]

theorem applyOp_store (op : MgrOp) (s : PMState) :
    (applyOp op s).store = s.store := by
  cases op <;>
    simp [applyOp, advertisePrefixes, withdrawPrefixes,
      withdrawPrefixesByClient, syncPrefixesByClientM,
      (applyTableOp_fields _ _ _).2.2.1]

theorem applyOp_hold (op : MgrOp) (s : PMState) :
    (applyOp op s).holdRemaining = s.holdRemaining := by
  cases op <;>
    simp [applyOp, advertisePrefixes, withdrawPrefixes,
      withdrawPrefixesByClient, syncPrefixesByClientM,
      (applyTableOp_fields _ _ _).2.2.2.1]

theorem applyOp_keyTtl (op : MgrOp) (s : PMState) :
    (applyOp op s).keyTtl = s.keyTtl := by
  cases op <;>
    simp [applyOp, advertisePrefixes, withdrawPrefixes,
      withdrawPrefixesByClient, syncPrefixesByClientM,
      (applyTableOp_fields _ _ _).2.2.2.2]

theorem tick_of_hold_pos {s : PMState} (h : 0 < s.holdRemaining) :
    tick s = { s with holdRemaining := s.holdRemaining - 1 } := by
  unfold tick
  rw [if_pos h]

theorem tick_store_eq {s : PMState} (hhold : s.holdRemaining = 0) :
    (tick s).store =
      (relevantKeys s).filterMap
          (fun p => (tickKey s p).1.map (fun sv => (p, sv)))
        ++ s.store.filter (fun kv => !(natMem kv.1 (relevantKeys s))) := by
  unfold tick
  rw [hhold]
  rfl

theorem tick_pub_eq {s : PMState} (hhold : s.holdRemaining = 0) :
    (tick s).pub = (relevantKeys s).filterMap
        (fun p => (tickKey s p).2.map (fun i => (p, i))) := by
  unfold tick
  rw [hhold]
  rfl

theorem tick_table_eq (s : PMState) : (tick s).table = s.table := by
  unfold tick
  split
  · rfl
  · rfl

theorem tick_keyTtl_eq (s : PMState) : (tick s).keyTtl = s.keyTtl := by
  unfold tick
  split
  · rfl
  · rfl

theorem tick_hold_of_zero {s : PMState} (hhold : s.holdRemaining = 0) :
    (tick s).holdRemaining = 0 := by
  unfold tick
  rw [hhold]
  rfl

theorem mem_relevantKeys_of_pub {s : PMState} {p : Nat} {i : Intent}
    (h : alookup p s.pub = some i) : p ∈ relevantKeys s := by
  unfold relevantKeys
  rw [List.mem_dedup, List.mem_append]
  exact Or.inl (alookup_isSome_mem_keys h)

theorem mem_relevantKeys_of_table {s : PMState} {e : PrefixEntry}
    (h : e ∈ s.table) : e.pfx ∈ relevantKeys s := by
  unfold relevantKeys
  rw [List.mem_dedup, List.mem_append]
  exact Or.inr (List.mem_map_of_mem _ h)

theorem mem_relevantKeys_of_winner {s : PMState} {p : Nat} {w : PrefixEntry}
    (h : winnerFor s.table p = some w) : p ∈ relevantKeys s := by
  rcases winnerFor_spec h with ⟨hmem, hpfx, _⟩
  exact hpfx ▸ mem_relevantKeys_of_table hmem

theorem relevantKeys_nodup (s : PMState) : (relevantKeys s).Nodup :=
  List.nodup_dedup _

theorem tick_store_lookup {s : PMState} (hhold : s.holdRemaining = 0)
    {p : Nat} (hp : p ∈ relevantKeys s) :
    alookup p (tick s).store = (tickKey s p).1 := by
  rw [tick_store_eq hhold, alookup_append,
    alookup_filterMap_dedupKeys (fun q => (tickKey s q).1)
      (relevantKeys_nodup s) p, if_pos hp]
  cases h : (tickKey s p).1 with
  | some sv => rfl
  | none => exact alookup_filter_mem_keys _ hp

theorem tick_store_lookup_not_mem {s : PMState} (hhold : s.holdRemaining = 0)
    {p : Nat} (hp : p ∉ relevantKeys s) :
    alookup p (tick s).store = alookup p s.store := by
  rw [tick_store_eq hhold, alookup_append,
    alookup_filterMap_dedupKeys (fun q => (tickKey s q).1)
      (relevantKeys_nodup s) p, if_neg hp]
  exact alookup_filter_not_mem_keys _ hp

theorem tick_pub_lookup {s : PMState} (hhold : s.holdRemaining = 0)
    {p : Nat} (hp : p ∈ relevantKeys s) :
    alookup p (tick s).pub = (tickKey s p).2 := by
  rw [tick_pub_eq hhold,
    alookup_filterMap_dedupKeys (fun q => (tickKey s q).2)
      (relevantKeys_nodup s) p, if_pos hp]

/-! ### Case analysis of the per-key reconciliation -/

theorem tickKey_frame {s : PMState} {p : Nat} {w : PrefixEntry} {sv : StoreVal}
    (hw : winnerFor s.table p = some w) (hc : alookup p s.store = some sv)
    (hr : sv.record = ⟨[w], false⟩) :
    (tickKey s p).1 = some sv ∧ (tickKey s p).2 = alookup p s.pub := by
  simp [tickKey, hw, hc, hr]

theorem tickKey_write_of_mismatch {s : PMState} {p : Nat} {w : PrefixEntry}
    {sv : StoreVal} (hw : winnerFor s.table p = some w)
    (hc : alookup p s.store = some sv)
    (hr : ¬(sv.record = ⟨[w], false⟩)) :
    (tickKey s p).1 =
      some ⟨⟨[w], false⟩,
        max (intentVersion (alookup p s.pub)) sv.version + 1, s.keyTtl⟩ ∧
    (tickKey s p).2 =
      some ⟨⟨[w], false⟩,
        max (intentVersion (alookup p s.pub)) sv.version + 1⟩ := by
  simp [tickKey, hw, hc, hr]

theorem tickKey_fresh {s : PMState} {p : Nat} {w : PrefixEntry}
    (hw : winnerFor s.table p = some w) (hc : alookup p s.store = none) :
    (tickKey s p).1 =
      some ⟨⟨[w], false⟩, intentVersion (alookup p s.pub) + 1, s.keyTtl⟩ ∧
    (tickKey s p).2 =
      some ⟨⟨[w], false⟩, intentVersion (alookup p s.pub) + 1⟩ := by
  simp [tickKey, hw, hc]

theorem tickKey_of_winner {s : PMState} {p : Nat} {w : PrefixEntry}
    (hw : winnerFor s.table p = some w) :
    ∃ sv, (tickKey s p).1 = some sv ∧ sv.record = ⟨[w], false⟩ := by
  cases hc : alookup p s.store with
  | some sv =>
    by_cases hr : sv.record = (⟨[w], false⟩ : PubRecord)
    · exact ⟨sv, (tickKey_frame hw hc hr).1, hr⟩
    · exact ⟨_, (tickKey_write_of_mismatch hw hc hr).1, rfl⟩
  | none => exact ⟨_, (tickKey_fresh hw hc).1, rfl⟩

theorem tickKey_marker_write {s : PMState} {p : Nat} {i : Intent}
    {sv : StoreVal} (hw : winnerFor s.table p = none)
    (hi : alookup p s.pub = some i) (hc : alookup p s.store = some sv)
    (hr : ¬(sv.record = ⟨i.record.entries, true⟩)) :
    (tickKey s p).1 =
      some ⟨⟨i.record.entries, true⟩, max i.version sv.version + 1, s.keyTtl⟩ ∧
    (tickKey s p).2 =
      some ⟨⟨i.record.entries, true⟩, max i.version sv.version + 1⟩ := by
  simp [tickKey, hw, hi, hc, hr]

theorem tickKey_marker_keep {s : PMState} {p : Nat} {i : Intent}
    {sv : StoreVal} (hw : winnerFor s.table p = none)
    (hi : alookup p s.pub = some i) (hc : alookup p s.store = some sv)
    (hr : sv.record = ⟨i.record.entries, true⟩) :
    (tickKey s p).1 = some sv ∧ (tickKey s p).2 = some i := by
  simp [tickKey, hw, hi, hc, hr]

theorem tickKey_marker_expired {s : PMState} {p : Nat} {i : Intent}
    (hw : winnerFor s.table p = none) (hi : alookup p s.pub = some i)
    (hc : alookup p s.store = none) :
    (tickKey s p).1 = none ∧ (tickKey s p).2 = some i := by
  simp [tickKey, hw, hi, hc]

/-! ### Key-preserving filterMap lemmas and elapse behaviour -/

theorem keys_filterMap_keyPres_sublist {α : Type} (f : Nat → α → Option α)
    (l : List (Nat × α)) :
    List.Sublist
      ((l.filterMap (fun kv => (f kv.1 kv.2).map (fun v => (kv.1, v)))).map
        Prod.fst)
      (l.map Prod.fst) := by
  induction l with
  | nil => exact List.Sublist.refl _
  | cons kv rest ih =>
    rcases kv with ⟨k, v⟩
    rw [List.filterMap_cons]
    cases f k v with
    | none => exact ih.cons _
    | some v' => simpa using ih.cons₂ k

theorem keysNodup_filterMap_keyPres {α : Type} {l : List (Nat × α)}
    (f : Nat → α → Option α) (hnd : keysNodup l) :
    keysNodup (l.filterMap (fun kv => (f kv.1 kv.2).map (fun v => (kv.1, v)))) :=
  List.Nodup.sublist (keys_filterMap_keyPres_sublist f l) hnd

theorem alookup_filterMap_keyPres_not_mem {α : Type} {l : List (Nat × α)}
    (f : Nat → α → Option α) {p : Nat} (h : p ∉ l.map Prod.fst) :
    alookup p
      (l.filterMap (fun kv => (f kv.1 kv.2).map (fun v => (kv.1, v)))) = none := by
  rw [alookup_eq_none_iff]
  intro kv hkv hkp
  rcases List.mem_filterMap.mp hkv with ⟨kv', hkv', hf⟩
  cases hfv : f kv'.1 kv'.2 with
  | none => rw [hfv, Option.map_none'] at hf; cases hf
  | some v =>
    rw [hfv, Option.map_some', Option.some.injEq] at hf
    subst hf
    apply h
    rw [show p = kv'.1 from hkp.symm]
    exact List.mem_map_of_mem _ hkv'

theorem alookup_filterMap_keyPreserving {α : Type} {l : List (Nat × α)}
    (hnd : keysNodup l) (f : Nat → α → Option α) (p : Nat) :
    alookup p (l.filterMap (fun kv => (f kv.1 kv.2).map (fun v => (kv.1, v)))) =
      (alookup p l).bind (fun v => f p v) := by
  induction l with
  | nil => simp [alookup]
  | cons kv rest ih =>
    rcases kv with ⟨k, v⟩
    have hnd' : keysNodup rest := (List.nodup_cons.mp hnd).2
    have hknot : k ∉ rest.map Prod.fst := (List.nodup_cons.mp hnd).1
    rw [List.filterMap_cons]
    by_cases hk : k = p
    · subst hk
      cases hfv : f k v with
      | none =>
        rw [Option.map_none']
        rw [alookup_filterMap_keyPres_not_mem f hknot]
        simp [alookup, hfv]
      | some v' =>
        rw [Option.map_some']
        simp [alookup, hfv]
    · cases hfv : f k v with
      | none =>
        rw [Option.map_none', ih hnd']
        simp [alookup, hk]
      | some v' =>
        rw [Option.map_some']
        simp only [alookup, if_neg hk]
        exact ih hnd'

theorem elapse_table (s : PMState) : (elapse s).table = s.table := rfl

theorem elapse_pub (s : PMState) : (elapse s).pub = s.pub := rfl

theorem elapse_snapshot (s : PMState) : (elapse s).snapshot = s.snapshot := rfl

theorem elapse_keyTtl (s : PMState) : (elapse s).keyTtl = s.keyTtl := rfl

theorem elapse_hold (s : PMState) :
    (elapse s).holdRemaining = s.holdRemaining := rfl

theorem elapse_store_lookup {s : PMState} (hnd : keysNodup s.store) (p : Nat) :
    alookup p (elapse s).store =
      (alookup p s.store).bind (fun sv => elapseVal s p sv) := by
  unfold elapse
  exact alookup_filterMap_keyPreserving hnd (fun k sv => elapseVal s k sv) p

theorem keysNodup_elapse {s : PMState} (hnd : keysNodup s.store) :
    keysNodup (elapse s).store :=
  keysNodup_filterMap_keyPres _ hnd

theorem foldl_upsert_absorb {es : List PrefixEntry} {t : OriginTable}
    (hwf : WF t) (hnd : (es.map entryKey).Nodup) :
    es.foldl upsertEntry (es.foldl upsertEntry t) = es.foldl upsertEntry t :=
  foldl_upsert_id (WF_foldl_upsert hwf)
    (fun e he => lookup_foldl_upsert_self hnd e he)

theorem saveIfDirty_of_clean {s : PMState}
    (h : nonEphemeralOf s.table = s.snapshot) : saveIfDirty s = s := by
  unfold saveIfDirty
  rw [if_pos h]

theorem saveIfDirty_of_dirty {s : PMState}
    (h : ¬(nonEphemeralOf s.table = s.snapshot)) :
    saveIfDirty s = { s with
      snapshot := nonEphemeralOf s.table,
      numWrites := s.numWrites + 1,
      writeLog := s.writeLog ++ [nonEphemeralOf s.table] } := by
  unfold saveIfDirty
  rw [if_neg h]

theorem applyTableOp_spec (b : Bool) (t' : OriginTable) {s : PMState}
    (hsnap : s.snapshot = nonEphemeralOf s.table) :
    (applyTableOp b t' s).snapshot = nonEphemeralOf t' ∧
      (nonEphemeralOf t' = nonEphemeralOf s.table →
        (applyTableOp b t' s).numWrites = s.numWrites ∧
        (applyTableOp b t' s).writeLog = s.writeLog) ∧
      (nonEphemeralOf t' ≠ nonEphemeralOf s.table →
        (applyTableOp b t' s).numWrites = s.numWrites + 1 ∧
        (applyTableOp b t' s).writeLog = s.writeLog ++ [nonEphemeralOf t']) := by
  by_cases h : nonEphemeralOf t' = nonEphemeralOf s.table
  · have hclean :
        nonEphemeralOf ({ s with table := t', dirty := s.dirty || b }).table =
          ({ s with table := t', dirty := s.dirty || b }).snapshot := by
      show nonEphemeralOf t' = s.snapshot
      rw [hsnap]
      exact h
    unfold applyTableOp
    rw [saveIfDirty_of_clean hclean]
    refine ⟨?_, fun _ => ⟨rfl, rfl⟩, fun hne => absurd h hne⟩
    show s.snapshot = nonEphemeralOf t'
    rw [hsnap]
    exact h.symm
  · have hdirty :
        ¬(nonEphemeralOf ({ s with table := t', dirty := s.dirty || b }).table =
          ({ s with table := t', dirty := s.dirty || b }).snapshot) := by
      show ¬(nonEphemeralOf t' = s.snapshot)
      rw [hsnap]
      exact h
    unfold applyTableOp
    rw [saveIfDirty_of_dirty hdirty]
    exact ⟨rfl, fun he => absurd he h, fun _ => ⟨rfl, rfl⟩⟩

theorem applyOp_table_eq (op : MgrOp) (s : PMState) :
    (applyOp op s).table = opTable op s.table := by
  cases op <;>
    simp [applyOp, opTable, advertisePrefixes, withdrawPrefixes,
      withdrawPrefixesByClient, syncPrefixesByClientM,
      (applyTableOp_fields _ _ _).1]

theorem applyOp_spec (op : MgrOp) {s : PMState}
    (hsnap : s.snapshot = nonEphemeralOf s.table) :
    (applyOp op s).snapshot = nonEphemeralOf (opTable op s.table) ∧
      (nonEphemeralOf (opTable op s.table) = nonEphemeralOf s.table →
        (applyOp op s).numWrites = s.numWrites ∧
        (applyOp op s).writeLog = s.writeLog) ∧
      (nonEphemeralOf (opTable op s.table) ≠ nonEphemeralOf s.table →
        (applyOp op s).numWrites = s.numWrites + 1 ∧
        (applyOp op s).writeLog =
          s.writeLog ++ [nonEphemeralOf (opTable op s.table)]) := by
  cases op with
  | advertise es =>
    exact applyTableOp_spec (addOrUpdatePrefixes es s.table).1
      (addOrUpdatePrefixes es s.table).2 hsnap
  | withdraw es =>
    exact applyTableOp_spec (removePrefixes es s.table).1
      (removePrefixes es s.table).2 hsnap
  | withdrawByClient c =>
    exact applyTableOp_spec (removePrefixesByClient c s.table).1
      (removePrefixesByClient c s.table).2 hsnap
  | syncByClient c es =>
    exact applyTableOp_spec (syncPrefixesByClient c es s.table).1
      (syncPrefixesByClient c es s.table).2 hsnap

theorem advertisePrefixes_fst (es : List PrefixEntry) (s : PMState) :
    (advertisePrefixes es s).1 =
      decide (es.foldl upsertEntry s.table ≠ s.table) := rfl

theorem withdrawPrefixes_fst (es : List PrefixEntry) (s : PMState) :
    (withdrawPrefixes es s).1 = (removePrefixes es s.table).1 := rfl

/-! ### Claim theorems -/

/-- C9: advertise and withdraw are idempotent at the boolean interface —
for a batch naming pairwise distinct `(network, client)` pairs, the
second of two identical `advertise` calls returns `false`, the second of
two identical `withdraw` calls returns `false`, and withdrawing a
`(network, client)` pair that is not present returns `false`. -/
theorem claim9_idempotent_bool {es : List PrefixEntry} {s : PMState}
    (hwf : WF s.table) (hnd : (es.map entryKey).Nodup) :
    (advertisePrefixes es (advertisePrefixes es s).2).1 = false ∧
      (withdrawPrefixes es (withdrawPrefixes es s).2).1 = false ∧
      (∀ e ∈ es, lookupEntry e.pfx e.client s.table = none →
        (withdrawPrefixes es s).1 = false) := by
  have htA : (advertisePrefixes es s).2.table = es.foldl upsertEntry s.table :=
    (applyTableOp_fields _ _ _).1
  refine ⟨?_, ?_, ?_⟩
  · have habs := foldl_upsert_absorb hwf hnd
    rw [advertisePrefixes_fst, htA, habs]
    simp
  · have htW : (withdrawPrefixes es s).2.table = (removePrefixes es s.table).2 :=
      (applyTableOp_fields _ _ _).1
    rw [withdrawPrefixes_fst]
    by_cases hemp : es.isEmpty = true
    · simp [removePrefixes, hemp]
    · by_cases hall : allPresent es s.table = true
      · have hex : ∃ a, a ∈ es := by
          cases es with
          | nil => simp at hemp
          | cons a es' => exact ⟨a, List.mem_cons_self _ _⟩
        rcases hex with ⟨a, ha⟩
        have htW2 : (withdrawPrefixes es s).2.table =
            es.foldl (fun acc e => removeKey e.pfx e.client acc) s.table := by
          rw [htW]
          simp [removePrefixes, hemp, hall]
        have hnone := lookup_foldl_remove_mem (t := s.table) ha
        have hallf : allPresent es ((withdrawPrefixes es s).2.table) = false := by
          rw [Bool.eq_false_iff]
          intro hco
          have h2 := List.all_eq_true.mp hco a ha
          rw [htW2, hnone] at h2
          simp at h2
        simp [removePrefixes, hemp, hallf]
      · have htW2 : (withdrawPrefixes es s).2.table = s.table := by
          rw [htW]
          simp [removePrefixes, hemp, hall]
        rw [htW2]
        simp [removePrefixes, hemp, hall]
  · intro e he hnone
    rw [withdrawPrefixes_fst]
    have hallf : allPresent es s.table = false := by
      rw [Bool.eq_false_iff]
      intro hco
      have h2 := List.all_eq_true.mp hco e he
      rw [hnone] at h2
      simp at h2
    have hef : es.isEmpty = false := by
      cases es with
      | nil => cases he
      | cons a es' => rfl
    simp [removePrefixes, hef, hallf]

/-- C9 witness: the idempotence law evaluated at a concrete entry against
a freshly started manager. -/
theorem claim9_witness :
    (advertisePrefixes [⟨1, .DEFAULT, 0, 0, false⟩]
        (advertisePrefixes [⟨1, .DEFAULT, 0, 0, false⟩] (initState 0 5)).2).1 =
        false ∧
      (withdrawPrefixes [⟨1, .DEFAULT, 0, 0, false⟩]
        (withdrawPrefixes [⟨1, .DEFAULT, 0, 0, false⟩] (initState 0 5)).2).1 =
        false ∧
      (∀ e ∈ ([⟨1, .DEFAULT, 0, 0, false⟩] : List PrefixEntry),
        lookupEntry e.pfx e.client (initState 0 5).table = none →
        (withdrawPrefixes [⟨1, .DEFAULT, 0, 0, false⟩] (initState 0 5)).1 =
          false) :=
  claim9_idempotent_bool (by unfold WF; decide) (by decide)

/-- C1 counterexample: with contributions for network 1 under both
DEFAULT and BGP, the batch `[(1, DEFAULT)]` names a network that has a
contribution under a different client (BGP) than the entry specifies,
yet the withdraw call returns `true` and changes the Origin Table —
refuting the claim that any such batch returns `false` with no change. -/
theorem claim1_counterexample :
    (∃ x ∈ ([⟨1, .DEFAULT, 0, 0, false⟩, ⟨1, .BGP, 0, 0, false⟩] :
        OriginTable), x.pfx = 1 ∧ x.client ≠ PrefixType.DEFAULT) ∧
      (removePrefixes [⟨1, .DEFAULT, 0, 0, false⟩]
        [⟨1, .DEFAULT, 0, 0, false⟩, ⟨1, .BGP, 0, 0, false⟩]).1 = true ∧
      (removePrefixes [⟨1, .DEFAULT, 0, 0, false⟩]
        [⟨1, .DEFAULT, 0, 0, false⟩, ⟨1, .BGP, 0, 0, false⟩]).2 ≠
        [⟨1, .DEFAULT, 0, 0, false⟩, ⟨1, .BGP, 0, 0, false⟩] := by
  decide

/-- C1 (amended): if any entry of the batch names a `(network, client)`
pair with no contribution under exactly that client — in particular when
the network contributes only under different clients — then the whole
withdraw call returns `false` and the Origin Table is unchanged,
including entries of the batch whose client does match. -/
theorem claim1_batch_reject {es : List PrefixEntry} {t : OriginTable}
    (h : ∃ e ∈ es, lookupEntry e.pfx e.client t = none) :
    removePrefixes es t = (false, t) := by
  rcases h with ⟨e, he, hnone⟩
  have hallf : allPresent es t = false := by
    rw [Bool.eq_false_iff]
    intro hco
    have h2 := List.all_eq_true.mp hco e he
    rw [hnone] at h2
    simp at h2
  have hef : es.isEmpty = false := by
    cases es with
    | nil => cases he
    | cons a es' => rfl
  simp [removePrefixes, hef, hallf]

/-- C1 witness: the batch-rejection law evaluated at the test scenario —
a mismatched entry plus a matching entry, both rejected atomically. -/
theorem claim1_witness :
    removePrefixes
        [⟨1, .PREFIX_ALLOCATOR, 0, 0, false⟩,
          ⟨2, .PREFIX_ALLOCATOR, 0, 0, false⟩]
        [⟨1, .DEFAULT, 0, 0, false⟩, ⟨2, .PREFIX_ALLOCATOR, 0, 0, false⟩] =
      (false,
        [⟨1, .DEFAULT, 0, 0, false⟩, ⟨2, .PREFIX_ALLOCATOR, 0, 0, false⟩]) :=
  claim1_batch_reject
    ⟨⟨1, .PREFIX_ALLOCATOR, 0, 0, false⟩, by decide, by decide⟩

theorem nonEphemeralOf_idem (t : OriginTable) :
    nonEphemeralOf (nonEphemeralOf t) = nonEphemeralOf t := by
  unfold nonEphemeralOf
  induction t with
  | nil => rfl
  | cons e t ih =>
    by_cases he : e.ephemeral
    · simp [List.filter_cons, he, ih]
    · simp [List.filter_cons, he, ih]

theorem lookup_nonEphemeralOf_persistent {t : OriginTable} {e : PrefixEntry}
    {p : Nat} {c : PrefixType} (h : lookupEntry p c t = some e)
    (he : e.ephemeral = false) :
    lookupEntry p c (nonEphemeralOf t) = some e := by
  unfold nonEphemeralOf
  induction t with
  | nil => cases h
  | cons x t ih =>
    by_cases hx : x.pfx = p ∧ x.client = c
    · rw [lookupEntry, if_pos hx] at h
      injection h with h
      subst h
      simp [List.filter_cons, he, lookupEntry, hx]
    · rw [lookupEntry, if_neg hx] at h
      by_cases hxe : x.ephemeral
      · simp only [List.filter_cons, hxe, Bool.not_true, if_neg]
        simpa [hxe] using ih h
      · have hxe' : x.ephemeral = false := by simpa using hxe
        simp [List.filter_cons, hxe', lookupEntry, hx]
        simpa [hxe'] using ih h

theorem lookup_nonEphemeralOf_ephemeral {t : OriginTable} {e : PrefixEntry}
    (hwf : WF t) (h : lookupEntry e.pfx e.client t = some e)
    (he : e.ephemeral = true) :
    lookupEntry e.pfx e.client (nonEphemeralOf t) = none := by
  rw [lookupEntry_eq_none_iff]
  intro x hx hmatch
  have hxt : x ∈ t := List.mem_of_mem_filter hx
  have het : e ∈ t := (lookupEntry_mem h).1
  have hxe : x = e := by
    refine List.inj_on_of_nodup_map hwf hxt het ?_
    simp [entryKey, hmatch.1, hmatch.2]
  have hq := List.of_mem_filter hx
  rw [hxe, he] at hq
  cases hq

/-- C2: the durable snapshot is physically written iff the non-ephemeral
projection of the Origin Table changes — any intake call that leaves the
projection unchanged (in particular one touching only ephemeral entries)
leaves the write counter unchanged, any call that changes the projection
increments it by exactly one, and the counter always equals the number
of physical writes recorded in the write log. -/
theorem claim2_dirty_filter (op : MgrOp) {s : PMState}
    (hsnap : s.snapshot = nonEphemeralOf s.table)
    (hcnt : s.numWrites = s.writeLog.length) :
    (applyOp op s).snapshot = nonEphemeralOf (applyOp op s).table ∧
      (nonEphemeralOf (applyOp op s).table = nonEphemeralOf s.table ↔
        (applyOp op s).numWrites = s.numWrites) ∧
      (nonEphemeralOf (applyOp op s).table ≠ nonEphemeralOf s.table ↔
        (applyOp op s).numWrites = s.numWrites + 1) ∧
      (applyOp op s).numWrites = (applyOp op s).writeLog.length := by
  have htab := applyOp_table_eq op s
  rcases applyOp_spec op hsnap with ⟨h1, h2, h3⟩
  rw [htab]
  refine ⟨by rw [h1], ?_, ?_, ?_⟩
  · constructor
    · intro heq
      exact (h2 heq).1
    · intro hn
      by_contra hne
      have := (h3 hne).1
      omega
  · constructor
    · intro hne
      exact (h3 hne).1
    · intro hn
      by_contra hee
      have := (h2 hee).1
      omega
  · by_cases heq : nonEphemeralOf (opTable op s.table) = nonEphemeralOf s.table
    · rw [(h2 heq).1, (h2 heq).2, hcnt]
    · rw [(h3 heq).1, (h3 heq).2]
      simp [hcnt]

/-- C2 witness: advertising a persistent entry from a fresh manager
writes exactly once and the projection changes; the iffs and the
counter/log agreement hold at this concrete input. -/
theorem claim2_witness :
    (applyOp (.advertise [entryP1]) (initState 0 5)).snapshot =
        nonEphemeralOf (applyOp (.advertise [entryP1]) (initState 0 5)).table ∧
      (nonEphemeralOf (applyOp (.advertise [entryP1]) (initState 0 5)).table =
          nonEphemeralOf (initState 0 5).table ↔
        (applyOp (.advertise [entryP1]) (initState 0 5)).numWrites =
          (initState 0 5).numWrites) ∧
      (nonEphemeralOf (applyOp (.advertise [entryP1]) (initState 0 5)).table ≠
          nonEphemeralOf (initState 0 5).table ↔
        (applyOp (.advertise [entryP1]) (initState 0 5)).numWrites =
          (initState 0 5).numWrites + 1) ∧
      (applyOp (.advertise [entryP1]) (initState 0 5)).numWrites =
        (applyOp (.advertise [entryP1]) (initState 0 5)).writeLog.length :=
  claim2_dirty_filter (.advertise [entryP1]) (by decide) (by decide)

/-- C5: after restarting against the same durable store, the reloaded
Origin Table is exactly the non-ephemeral projection of the previous
table; withdrawing a previously persistent entry returns `true`,
withdrawing a previously ephemeral entry returns `false`. -/
theorem claim5_reload {s : PMState} {h : Nat} (hwf : WF s.table)
    (hsnap : s.snapshot = nonEphemeralOf s.table) :
    (restart s h).table = nonEphemeralOf s.table ∧
      (∀ e, lookupEntry e.pfx e.client s.table = some e →
        e.ephemeral = false → (withdrawPrefixes [e] (restart s h)).1 = true) ∧
      (∀ e, lookupEntry e.pfx e.client s.table = some e →
        e.ephemeral = true → (withdrawPrefixes [e] (restart s h)).1 = false) := by
  have htab : (restart s h).table = nonEphemeralOf s.table := by
    show loadSnapshot s.snapshot = nonEphemeralOf s.table
    unfold loadSnapshot
    rw [hsnap]
    exact nonEphemeralOf_idem s.table
  refine ⟨htab, ?_, ?_⟩
  · intro e hlk hep
    rw [withdrawPrefixes_fst, htab]
    have hlk2 := lookup_nonEphemeralOf_persistent hlk hep
    simp [removePrefixes, allPresent, hlk2]
  · intro e hlk hep
    rw [withdrawPrefixes_fst, htab]
    have hlk2 := lookup_nonEphemeralOf_ephemeral hwf hlk hep
    simp [removePrefixes, allPresent, hlk2]

/-- C5 witness: with a persistent and an ephemeral entry advertised, the
restarted manager reloads only the persistent one; its withdraw returns
`true`, the ephemeral one's returns `false`. -/
theorem claim5_witness :
    (restart
        { table := [entryP1, entryE9], snapshot := [entryP1], numWrites := 1,
          writeLog := [[entryP1]], pub := [], store := [], dirty := true,
          holdRemaining := 0, keyTtl := 5 } 0).table =
      nonEphemeralOf [entryP1, entryE9] ∧
      (∀ e, lookupEntry e.pfx e.client [entryP1, entryE9] = some e →
        e.ephemeral = false →
        (withdrawPrefixes [e] (restart
          { table := [entryP1, entryE9], snapshot := [entryP1], numWrites := 1,
            writeLog := [[entryP1]], pub := [], store := [], dirty := true,
            holdRemaining := 0, keyTtl := 5 } 0)).1 = true) ∧
      (∀ e, lookupEntry e.pfx e.client [entryP1, entryE9] = some e →
        e.ephemeral = true →
        (withdrawPrefixes [e] (restart
          { table := [entryP1, entryE9], snapshot := [entryP1], numWrites := 1,
            writeLog := [[entryP1]], pub := [], store := [], dirty := true,
            holdRemaining := 0, keyTtl := 5 } 0)).1 = false) :=
  claim5_reload (by unfold WF; decide) (by decide)

theorem WF_foldl_remove {es : List PrefixEntry} {t : OriginTable}
    (h : WF t) :
    WF (es.foldl (fun acc e => removeKey e.pfx e.client acc) t) := by
  induction es generalizing t with
  | nil => exact h
  | cons a es ih => exact ih (WF_filter _ h)

theorem WF_opTable (op : MgrOp) {t : OriginTable} (h : WF t) :
    WF (opTable op t) := by
  cases op with
  | advertise es => exact WF_foldl_upsert h
  | withdraw es =>
    show WF (removePrefixes es t).2
    unfold removePrefixes
    by_cases hemp : es.isEmpty = true
    · simpa [hemp] using h
    · by_cases hall : allPresent es t = true
      · simpa [hemp, hall] using @WF_foldl_remove es t h
      · simpa [hemp, hall] using h
  | withdrawByClient c => exact WF_filter _ h
  | syncByClient c es => exact WF_filter _ (WF_foldl_upsert h)

/-- C4: for every network with at least one contributor, the winning
entry returned by `get_all` — and pushed to the replicated store at the
next publication burst — is a present contribution whose client has the
lowest priority tag among present clients, and well-formedness (hence
the invariant) is preserved by every Origin Table operation. -/
theorem claim4_winner_invariant {s : PMState} (hwf : WF s.table) :
    (∀ p w, winnerFor s.table p = some w →
      w ∈ s.table ∧ w.pfx = p ∧ w ∈ getAllWinners s.table ∧
        ∀ e ∈ s.table, e.pfx = p → w.client.priority ≤ e.client.priority) ∧
      (∀ e ∈ s.table, (winnerFor s.table e.pfx).isSome = true) ∧
      (s.holdRemaining = 0 → ∀ p w, winnerFor s.table p = some w →
        ∃ sv, alookup p (tick s).store = some sv ∧
          sv.record = ⟨[w], false⟩) ∧
      (∀ op, WF (applyOp op s).table) := by
  refine ⟨?_, ?_, ?_, ?_⟩
  · intro p w hw
    rcases winnerFor_spec hw with ⟨h1, h2, h3⟩
    exact ⟨h1, h2, winner_mem_getAllWinners hw, h3⟩
  · intro e he
    exact winnerFor_isSome he
  · intro hhold p w hw
    rw [tick_store_lookup hhold (mem_relevantKeys_of_winner hw)]
    exact tickKey_of_winner hw
  · intro op
    rw [applyOp_table_eq]
    exact WF_opTable op hwf

/-- C4 witness: with LOOPBACK, DEFAULT and BGP contributions for network
1, the LOOPBACK entry wins and is published; after withdrawing LOOPBACK,
DEFAULT wins. -/
theorem claim4_witness :
    ((∀ p w, winnerFor st4.table p = some w →
      w ∈ st4.table ∧ w.pfx = p ∧ w ∈ getAllWinners st4.table ∧
        ∀ e ∈ st4.table, e.pfx = p →
          w.client.priority ≤ e.client.priority) ∧
      (∀ e ∈ st4.table, (winnerFor st4.table e.pfx).isSome = true) ∧
      (st4.holdRemaining = 0 → ∀ p w, winnerFor st4.table p = some w →
        ∃ sv, alookup p (tick st4).store = some sv ∧
          sv.record = ⟨[w], false⟩) ∧
      (∀ op, WF (applyOp op st4).table)) ∧
      winnerFor st4.table 1 = some ⟨1, .LOOPBACK, 0, 0, false⟩ ∧
      winnerFor (removePrefixes [⟨1, .LOOPBACK, 0, 0, false⟩] st4.table).2 1 =
        some ⟨1, .DEFAULT, 0, 0, false⟩ :=
  ⟨claim4_winner_invariant (s := st4) (by unfold WF; decide),
    by decide, by decide⟩

/-- C7: frame property of the publication diff — a key whose winning
entry already matches what the replicated store holds is left completely
untouched by a publication burst: same record, same version, no
republish. -/
theorem claim7_frame {s : PMState} {p : Nat} {w : PrefixEntry}
    {sv : StoreVal} (hhold : s.holdRemaining = 0)
    (hw : winnerFor s.table p = some w)
    (hc : alookup p s.store = some sv)
    (hr : sv.record = ⟨[w], false⟩) :
    alookup p (tick s).store = some sv := by
  rw [tick_store_lookup hhold (mem_relevantKeys_of_winner hw)]
  exact (tickKey_frame hw hc hr).1

/-- C7 witness: after advertising a first entry and publishing it at
version 1, advertising a second entry leaves the first key untouched at
version 1 across the next publication burst. -/
theorem claim7_witness :
    alookup 1 (tick st7).store = some ⟨⟨[entryP1], false⟩, 1, 5⟩ :=
  @claim7_frame st7 1 entryP1 ⟨⟨[entryP1], false⟩, 1, 5⟩
    (by decide) (by decide) (by decide) (by decide)

/-- C10: an ephemeral entry is advertised into the replicated store
exactly like a persistent one — advertising a fresh ephemeral entry
returns `true` and the next publication burst publishes its record —
while the durable snapshot and its write counter are untouched. -/
theorem claim10_ephemeral_published {s : PMState} {e : PrefixEntry}
    (hsnap : s.snapshot = nonEphemeralOf s.table)
    (heph : e.ephemeral = true)
    (hfresh : ∀ x ∈ s.table, x.pfx ≠ e.pfx)
    (hhold : s.holdRemaining = 0) :
    (advertisePrefixes [e] s).1 = true ∧
      (advertisePrefixes [e] s).2.snapshot = s.snapshot ∧
      (advertisePrefixes [e] s).2.numWrites = s.numWrites ∧
      ∃ sv, alookup e.pfx (tick (advertisePrefixes [e] s).2).store = some sv ∧
        sv.record = ⟨[e], false⟩ := by
  have hnone : lookupEntry e.pfx e.client s.table = none := by
    rw [lookupEntry_eq_none_iff]
    intro x hx hmatch
    exact hfresh x hx hmatch.1
  have hups : [e].foldl upsertEntry s.table = s.table ++ [e] := by
    show upsertEntry s.table e = s.table ++ [e]
    unfold upsertEntry
    rw [hnone]
    rfl
  have hne : s.table ++ [e] ≠ s.table := by
    intro hco
    have := congrArg List.length hco
    simp at this
  have hproj : nonEphemeralOf (s.table ++ [e]) = nonEphemeralOf s.table := by
    unfold nonEphemeralOf
    rw [List.filter_append]
    simp [heph]
  have htab : (advertisePrefixes [e] s).2.table = s.table ++ [e] := by
    have h0 : (advertisePrefixes [e] s).2.table =
        (addOrUpdatePrefixes [e] s.table).2 := (applyTableOp_fields _ _ _).1
    rw [h0]
    show [e].foldl upsertEntry s.table = s.table ++ [e]
    exact hups
  have hspec := applyTableOp_spec (addOrUpdatePrefixes [e] s.table).1
    (addOrUpdatePrefixes [e] s.table).2 hsnap
  refine ⟨?_, ?_, ?_, ?_⟩
  · rw [advertisePrefixes_fst, hups]
    simp [hne]
  · have h1 : (advertisePrefixes [e] s).2.snapshot =
        nonEphemeralOf (addOrUpdatePrefixes [e] s.table).2 := hspec.1
    rw [h1]
    show nonEphemeralOf ([e].foldl upsertEntry s.table) = s.snapshot
    rw [hups, hproj, hsnap]
  · have h2 := hspec.2.1
    have heq : nonEphemeralOf (addOrUpdatePrefixes [e] s.table).2 =
        nonEphemeralOf s.table := by
      show nonEphemeralOf ([e].foldl upsertEntry s.table) = nonEphemeralOf s.table
      rw [hups, hproj]
    exact (h2 heq).1
  · have hhold1 : (advertisePrefixes [e] s).2.holdRemaining = 0 := by
      have h0 : (advertisePrefixes [e] s).2.holdRemaining = s.holdRemaining :=
        (applyTableOp_fields _ _ _).2.2.2.1
      rw [h0]
      exact hhold
    have hwin : winnerFor (advertisePrefixes [e] s).2.table e.pfx = some e := by
      rw [htab]
      unfold winnerFor
      have hef : entriesFor e.pfx (s.table ++ [e]) = [e] := by
        unfold entriesFor
        rw [List.filter_append]
        have h1 : s.table.filter (fun x => decide (x.pfx = e.pfx)) = [] := by
          rw [List.filter_eq_nil_iff]
          intro x hx
          simp [hfresh x hx]
        rw [h1]
        simp
      rw [hef]
      rfl
    rw [tick_store_lookup hhold1 (mem_relevantKeys_of_winner hwin)]
    exact tickKey_of_winner hwin

/-- C10 witness: advertising the sample ephemeral entry from a fresh
manager succeeds, appears in the store after one burst, and causes no
snapshot write. -/
theorem claim10_witness :
    (advertisePrefixes [entryE9] (initState 0 5)).1 = true ∧
      (advertisePrefixes [entryE9] (initState 0 5)).2.snapshot =
        (initState 0 5).snapshot ∧
      (advertisePrefixes [entryE9] (initState 0 5)).2.numWrites =
        (initState 0 5).numWrites ∧
      ∃ sv, alookup entryE9.pfx
          (tick (advertisePrefixes [entryE9] (initState 0 5)).2).store =
          some sv ∧ sv.record = ⟨[entryE9], false⟩ :=
  claim10_ephemeral_published (by decide) (by decide) (by decide) (by decide)

/-- C3: adversarial-overwrite handling — when the store receives, under
one of the engine's keys, a value the engine did not publish at version
`V` (at least the engine's own version), the next publication burst
republishes: the engine's current intended winning record at `V + 1`
when it still owns the network, and the delete-marker at `V + 1` when it
has withdrawn it. -/
theorem claim3_reassert {s : PMState} {p : Nat} {sv0 : StoreVal}
    (hhold : s.holdRemaining = 0) :
    (∀ w, winnerFor s.table p = some w →
      sv0.record ≠ ⟨[w], false⟩ →
      intentVersion (alookup p s.pub) ≤ sv0.version →
      alookup p (tick { s with store := aset p sv0 s.store }).store =
        some (StoreVal.mk (PubRecord.mk [w] false) (sv0.version + 1)
          s.keyTtl)) ∧
    (∀ i, winnerFor s.table p = none →
      alookup p s.pub = some i →
      sv0.record ≠ ⟨i.record.entries, true⟩ →
      i.version ≤ sv0.version →
      alookup p (tick { s with store := aset p sv0 s.store }).store =
        some (StoreVal.mk (PubRecord.mk i.record.entries true)
          (sv0.version + 1) s.keyTtl)) := by
  have hset : alookup p ({ s with store := aset p sv0 s.store } :
      PMState).store = some sv0 := alookup_aset_self p sv0 s.store
  constructor
  · intro w hw hnr hvle
    have hlook := @tick_store_lookup { s with store := aset p sv0 s.store }
      hhold p (mem_relevantKeys_of_winner hw)
    have htk := @tickKey_write_of_mismatch
      { s with store := aset p sv0 s.store } p w sv0 hw hset hnr
    rw [hlook, htk.1]
    show some (StoreVal.mk (PubRecord.mk [w] false)
        (max (intentVersion (alookup p s.pub)) sv0.version + 1) s.keyTtl) =
      some (StoreVal.mk (PubRecord.mk [w] false) (sv0.version + 1) s.keyTtl)
    rw [Nat.max_eq_right hvle]
  · intro i hw hi hnr hvle
    have hlook := @tick_store_lookup { s with store := aset p sv0 s.store }
      hhold p (mem_relevantKeys_of_pub hi)
    have htk := @tickKey_marker_write
      { s with store := aset p sv0 s.store } p i sv0 hw hi hset hnr
    rw [hlook, htk.1]
    show some (StoreVal.mk (PubRecord.mk i.record.entries true)
        (max i.version sv0.version + 1) s.keyTtl) =
      some (StoreVal.mk (PubRecord.mk i.record.entries true)
        (sv0.version + 1) s.keyTtl)
    rw [Nat.max_eq_right hvle]

/-- C3 witness: the reassertion law evaluated on the
`PrefixKeySubscribtion` scenario — an adversarial empty record at
version 2 over an owned key is overwritten with the intended entry at
version 3; an adversarial non-empty record at version 100 over a
withdrawn key is overwritten with the delete-marker at version 101. -/
theorem claim3_witness :
    alookup 1 (tick { runEvents [.intake (.advertise [entryP1]), .tickEv]
          (initState 0 5) with
        store := aset 1 ⟨⟨[], false⟩, 2, 5⟩
          (runEvents [.intake (.advertise [entryP1]), .tickEv]
            (initState 0 5)).store }).store =
      some ⟨⟨[entryP1], false⟩, 3, 5⟩ ∧
    alookup 1 (tick { runEvents [.intake (.advertise [entryP1]), .tickEv,
          .intake (.withdraw [entryP1]), .tickEv] (initState 0 5) with
        store := aset 1 ⟨⟨[entryP1], false⟩, 100, 5⟩
          (runEvents [.intake (.advertise [entryP1]), .tickEv,
            .intake (.withdraw [entryP1]), .tickEv] (initState 0 5)).store
        }).store =
      some ⟨⟨[entryP1], true⟩, 101, 5⟩ :=
  ⟨(claim3_reassert (by decide)).1 entryP1 (by decide) (by decide) (by decide),
    (claim3_reassert (by decide)).2 ⟨⟨[entryP1], true⟩, 2⟩ (by decide)
      (by decide) (by decide) (by decide)⟩

theorem runEvents_intakeOnly_table (evs : List Event) (s1 s2 : PMState)
    (hst : s1.table = s2.table) :
    (runEvents (intakeOnly evs) s1).table =
      (runEvents (intakeOnly evs) s2).table := by
  induction evs generalizing s1 s2 with
  | nil => exact hst
  | cons ev evs ih =>
    cases ev with
    | intake op =>
      show (runEvents (intakeOnly evs) (applyOp op s1)).table =
        (runEvents (intakeOnly evs) (applyOp op s2)).table
      apply ih
      rw [applyOp_table_eq, applyOp_table_eq, hst]
    | tickEv => exact ih s1 s2 hst
    | elapseEv => exact ih s1 s2 hst

/-- C8: while the initial hold timer is active, intake is accepted and
mutates the Origin Table exactly as it would without the hold, but no
publication reaches the replicated store; once hold has elapsed, the
next throttle firing publishes every winning entry. -/
theorem claim8_hold {s : PMState} {evs : List Event} {h : Nat}
    (hhold : s.holdRemaining = h)
    (hnoel : ∀ ev ∈ evs, ev ≠ Event.elapseEv)
    (htc : tickCount evs ≤ h) :
    (runEvents evs s).store = s.store ∧
      (runEvents evs s).holdRemaining = h - tickCount evs ∧
      (runEvents evs s).table = (runEvents (intakeOnly evs) s).table ∧
      (∀ s' : PMState, s'.holdRemaining = 0 →
        ∀ p w, winnerFor s'.table p = some w →
          (alookup p (tick s').store).isSome = true) := by
  have hmain : ∀ (evs : List Event) (s : PMState) (h : Nat),
      s.holdRemaining = h → (∀ ev ∈ evs, ev ≠ Event.elapseEv) →
      tickCount evs ≤ h →
      (runEvents evs s).store = s.store ∧
        (runEvents evs s).holdRemaining = h - tickCount evs ∧
        (runEvents evs s).table = (runEvents (intakeOnly evs) s).table := by
    intro evs
    induction evs with
    | nil =>
      intro s h hh _ _
      refine ⟨rfl, ?_, rfl⟩
      show s.holdRemaining = h - tickCount []
      rw [hh]
      rfl
    | cons ev evs ih =>
      intro s h hh hne htc
      cases ev with
      | intake op =>
        have hs' : (applyOp op s).holdRemaining = h := by
          rw [applyOp_hold]
          exact hh
        have htc' : tickCount evs ≤ h := by
          have : tickCount (Event.intake op :: evs) = tickCount evs := rfl
          rw [this] at htc
          exact htc
        rcases ih (applyOp op s) h hs'
          (fun e he => hne e (List.mem_cons_of_mem _ he)) htc' with
          ⟨h1, h2, h3⟩
        refine ⟨?_, ?_, ?_⟩
        · show (runEvents evs (applyOp op s)).store = s.store
          rw [h1, applyOp_store]
        · show (runEvents evs (applyOp op s)).holdRemaining =
            h - tickCount (Event.intake op :: evs)
          rw [h2]
          rfl
        · show (runEvents evs (applyOp op s)).table =
            (runEvents (Event.intake op :: intakeOnly evs) s).table
          rw [h3]
          rfl
      | tickEv =>
        have htc0 : tickCount evs + 1 ≤ h := htc
        have hpos : 0 < s.holdRemaining := by
          rw [hh]
          omega
        have ht : tick s = { s with holdRemaining := s.holdRemaining - 1 } :=
          tick_of_hold_pos hpos
        have hs' : (tick s).holdRemaining = h - 1 := by
          rw [ht]
          show s.holdRemaining - 1 = h - 1
          rw [hh]
        rcases ih (tick s) (h - 1) hs'
          (fun e he => hne e (List.mem_cons_of_mem _ he)) (by omega) with
          ⟨h1, h2, h3⟩
        refine ⟨?_, ?_, ?_⟩
        · show (runEvents evs (tick s)).store = s.store
          rw [h1, ht]
        · show (runEvents evs (tick s)).holdRemaining =
            h - tickCount (Event.tickEv :: evs)
          rw [h2]
          show h - 1 - tickCount evs = h - (tickCount evs + 1)
          omega
        · show (runEvents evs (tick s)).table =
            (runEvents (intakeOnly evs) s).table
          rw [h3]
          exact runEvents_intakeOnly_table evs (tick s) s (tick_table_eq s)
      | elapseEv =>
        exact absurd rfl (hne Event.elapseEv (List.mem_cons_self _ _))
  rcases hmain evs s h hhold hnoel htc with ⟨h1, h2, h3⟩
  refine ⟨h1, h2, h3, ?_⟩
  intro s' hh' p w hw
  rw [tick_store_lookup hh' (mem_relevantKeys_of_winner hw)]
  rcases tickKey_of_winner hw with ⟨sv, hsv, _⟩
  rw [hsv]
  rfl

/-- C8 witness: a manager started with a hold of two throttle windows
accepts an advertise and two timer firings without publishing anything;
the store stays empty while the table carries the entry. -/
theorem claim8_witness :
    (runEvents [.intake (.advertise [entryP1]), .tickEv, .tickEv]
        (initState 2 5)).store = (initState 2 5).store ∧
      (runEvents [.intake (.advertise [entryP1]), .tickEv, .tickEv]
        (initState 2 5)).holdRemaining =
        2 - tickCount [.intake (.advertise [entryP1]), .tickEv, .tickEv] ∧
      (runEvents [.intake (.advertise [entryP1]), .tickEv, .tickEv]
        (initState 2 5)).table =
        (runEvents (intakeOnly
            [.intake (.advertise [entryP1]), .tickEv, .tickEv])
          (initState 2 5)).table ∧
      (∀ s' : PMState, s'.holdRemaining = 0 →
        ∀ p w, winnerFor s'.table p = some w →
          (alookup p (tick s').store).isSome = true) :=
  claim8_hold (by decide) (by decide) (by decide)

theorem keys_filterMap_g_sublist {α : Type} (g : Nat → Option α)
    (ks : List Nat) :
    List.Sublist
      ((ks.filterMap (fun q => (g q).map (fun v => (q, v)))).map Prod.fst)
      ks := by
  induction ks with
  | nil => exact List.Sublist.refl _
  | cons k ks ih =>
    rw [List.filterMap_cons]
    cases g k with
    | none => exact ih.cons _
    | some v => simpa using ih.cons₂ k

theorem keys_filterMap_g_mem {α : Type} {g : Nat → Option α} {ks : List Nat}
    {k : Nat}
    (h : k ∈
      (ks.filterMap (fun q => (g q).map (fun v => (q, v)))).map Prod.fst) :
    k ∈ ks := by
  rcases List.mem_map.mp h with ⟨kv, hkv, hfst⟩
  rcases List.mem_filterMap.mp hkv with ⟨q, hq, hgq⟩
  cases hg : g q with
  | none => rw [hg, Option.map_none'] at hgq; cases hgq
  | some v =>
    rw [hg, Option.map_some', Option.some.injEq] at hgq
    subst hgq
    rw [show k = q from hfst.symm]
    exact hq

theorem tick_store_keysNodup {s : PMState} (hhold : s.holdRemaining = 0)
    (hnd : keysNodup s.store) : keysNodup (tick s).store := by
  rw [tick_store_eq hhold]
  unfold keysNodup
  rw [List.map_append]
  refine List.nodup_append.mpr ⟨?_, ?_, ?_⟩
  · exact List.Nodup.sublist
      (keys_filterMap_g_sublist (fun q => (tickKey s q).1) (relevantKeys s))
      (relevantKeys_nodup s)
  · exact List.Nodup.sublist (List.Sublist.map _ (List.filter_sublist _)) hnd
  · intro k hk1 hk2
    have hks : k ∈ relevantKeys s := keys_filterMap_g_mem hk1
    rcases List.mem_map.mp hk2 with ⟨kv, hkv, hfst⟩
    have hfil := List.of_mem_filter hkv
    rw [Bool.not_eq_true'] at hfil
    rw [hfst] at hfil
    have hmem := natMem_iff.mpr hks
    rw [hfil] at hmem
    cases hmem

theorem elapse_none {s : PMState} {p : Nat}
    (h : alookup p s.store = none) : alookup p (elapse s).store = none := by
  rw [alookup_eq_none_iff] at h ⊢
  intro kv hkv
  rcases List.mem_filterMap.mp hkv with ⟨kv', hkv', hf⟩
  cases hfv : elapseVal s kv'.1 kv'.2 with
  | none => rw [hfv, Option.map_none'] at hf; cases hf
  | some v =>
    rw [hfv, Option.map_some', Option.some.injEq] at hf
    subst hf
    exact h kv' hkv'

theorem elapseN_store_none {p : Nat} :
    ∀ (n : Nat) (s : PMState), alookup p s.store = none →
      alookup p (elapseN n s).store = none := by
  intro n
  induction n with
  | zero => intro s h; exact h
  | succ n ih => intro s h; exact ih (elapse s) (elapse_none h)

theorem elapseN_pub (n : Nat) (s : PMState) : (elapseN n s).pub = s.pub := by
  induction n generalizing s with
  | zero => rfl
  | succ n ih =>
    show (elapseN n (elapse s)).pub = s.pub
    rw [ih (elapse s)]
    rfl

theorem elapseN_marker_gone {p : Nat} {i : Intent}
    (hdel : i.record.deletePfx = true) :
    ∀ (n : Nat) (s : PMState) (sv : StoreVal), keysNodup s.store →
      alookup p s.pub = some i →
      alookup p s.store = some sv → 1 ≤ sv.ttl → sv.ttl ≤ n →
      alookup p (elapseN n s).store = none := by
  intro n
  induction n with
  | zero =>
    intro s sv _ _ _ h1 h2
    omega
  | succ n ih =>
    intro s sv hnd hpub hsv h1 h2
    show alookup p (elapseN n (elapse s)).store = none
    have hnr : refreshable s p sv = false := by
      unfold refreshable
      rw [hpub]
      simp [hdel]
    have hst := elapse_store_lookup hnd p
    rw [hsv] at hst
    by_cases hend : sv.ttl ≤ 1
    · have hgone : alookup p (elapse s).store = none := by
        rw [hst]
        simp [elapseVal, hnr, hend]
      exact elapseN_store_none n (elapse s) hgone
    · have hlive : alookup p (elapse s).store =
          some { sv with ttl := sv.ttl - 1 } := by
        rw [hst]
        simp [elapseVal, hnr, hend]
      refine ih (elapse s) { sv with ttl := sv.ttl - 1 }
        (keysNodup_elapse hnd) ?_ hlive ?_ ?_
      · rw [elapse_pub]
        exact hpub
      · show 1 ≤ sv.ttl - 1
        omega
      · show sv.ttl - 1 ≤ n
        omega

theorem elapseN_owned_kept {q : Nat} {iq : Intent}
    (hlive : iq.record.deletePfx = false) :
    ∀ (n : Nat) (s : PMState) (svq : StoreVal), keysNodup s.store →
      alookup q s.pub = some iq →
      alookup q s.store = some svq → svq.record = iq.record →
      ∃ svq', alookup q (elapseN n s).store = some svq' ∧
        svq'.record = svq.record ∧ svq'.version = svq.version := by
  intro n
  induction n with
  | zero =>
    intro s svq _ _ hsv _
    exact ⟨svq, hsv, rfl, rfl⟩
  | succ n ih =>
    intro s svq hnd hpub hsv hrec
    have hr : refreshable s q svq = true := by
      unfold refreshable
      rw [hpub]
      simp [hlive, hrec]
    have hst := elapse_store_lookup hnd q
    rw [hsv] at hst
    have hkeep : alookup q (elapse s).store =
        some { svq with ttl := s.keyTtl } := by
      rw [hst]
      simp [elapseVal, hr]
    rcases ih (elapse s) { svq with ttl := s.keyTtl } (keysNodup_elapse hnd)
      (by rw [elapse_pub]; exact hpub) hkeep hrec with ⟨sv', ha, hb, hc⟩
    exact ⟨sv', ha, hb, hc⟩

/-- C6: withdrawing a network's last contributor makes the next
publication burst publish a delete-marker under the network's key — the
last-known entries flagged `deletePrefix = true` at a strictly larger
version — instead of removing the key; once the key TTL has elapsed the
key is gone from the store, while a still-owned key survives with its
record and version unchanged. -/
theorem claim6_withdraw_expiry {s : PMState} {e : PrefixEntry} {i : Intent}
    {sv : StoreVal} {q : Nat} {iq : Intent} {svq : StoreVal}
    {wq : PrefixEntry}
    (hstnd : keysNodup s.store)
    (hhold : s.holdRemaining = 0) (httl : 1 ≤ s.keyTtl)
    (hlk : lookupEntry e.pfx e.client s.table = some e)
    (honly : ∀ x ∈ s.table, x.pfx = e.pfx → x = e)
    (hpub : alookup e.pfx s.pub = some i)
    (hilive : i.record.deletePfx = false)
    (hstore : alookup e.pfx s.store = some sv)
    (hsync : sv.record = i.record)
    (hq : q ≠ e.pfx)
    (hqpub : alookup q s.pub = some iq)
    (hqwin : winnerFor s.table q = some wq)
    (hqrec : iq.record = ⟨[wq], false⟩)
    (hqstore : alookup q s.store = some svq)
    (hqsync : svq.record = iq.record) :
    ∃ svm,
      alookup e.pfx (tick (withdrawPrefixes [e] s).2).store = some svm ∧
        svm.record.deletePfx = true ∧
        svm.record.entries = i.record.entries ∧
        sv.version < svm.version ∧
        alookup e.pfx
          (elapseN s.keyTtl (tick (withdrawPrefixes [e] s).2)).store = none ∧
        ∃ svq', alookup q
            (elapseN s.keyTtl (tick (withdrawPrefixes [e] s).2)).store =
            some svq' ∧ svq'.record = svq.record ∧
            svq'.version = svq.version := by
  have ht1 : (withdrawPrefixes [e] s).2.table =
      removeKey e.pfx e.client s.table := by
    have h0 : (withdrawPrefixes [e] s).2.table =
        (removePrefixes [e] s.table).2 := (applyTableOp_fields _ _ _).1
    rw [h0]
    simp [removePrefixes, allPresent, hlk]
  have hp1 : (withdrawPrefixes [e] s).2.pub = s.pub :=
    (applyTableOp_fields _ _ _).2.1
  have hs1 : (withdrawPrefixes [e] s).2.store = s.store :=
    (applyTableOp_fields _ _ _).2.2.1
  have hh1 : (withdrawPrefixes [e] s).2.holdRemaining = 0 := by
    have h0 : (withdrawPrefixes [e] s).2.holdRemaining = s.holdRemaining :=
      (applyTableOp_fields _ _ _).2.2.2.1
    rw [h0]
    exact hhold
  have hk1 : (withdrawPrefixes [e] s).2.keyTtl = s.keyTtl :=
    (applyTableOp_fields _ _ _).2.2.2.2
  have hnd1 : keysNodup (withdrawPrefixes [e] s).2.store := by
    rw [hs1]
    exact hstnd
  have hpub1 : alookup e.pfx (withdrawPrefixes [e] s).2.pub = some i := by
    rw [hp1]
    exact hpub
  have hstore1 : alookup e.pfx (withdrawPrefixes [e] s).2.store = some sv := by
    rw [hs1]
    exact hstore
  have hqpub1 : alookup q (withdrawPrefixes [e] s).2.pub = some iq := by
    rw [hp1]
    exact hqpub
  have hqstore1 : alookup q (withdrawPrefixes [e] s).2.store = some svq := by
    rw [hs1]
    exact hqstore
  have hw1 : winnerFor (withdrawPrefixes [e] s).2.table e.pfx = none := by
    rw [ht1]
    unfold winnerFor
    have hnoent : entriesFor e.pfx (removeKey e.pfx e.client s.table) = [] := by
      unfold entriesFor removeKey
      rw [List.filter_eq_nil_iff]
      intro x hx hxp2
      have hxp := of_decide_eq_true hxp2
      have hxt : x ∈ s.table := List.mem_of_mem_filter hx
      have hxe : x = e := honly x hxt hxp
      have hk := List.of_mem_filter hx
      rw [hxe] at hk
      simp at hk
    rw [hnoent]
  have hwq1 : winnerFor (withdrawPrefixes [e] s).2.table q = some wq := by
    rw [ht1]
    unfold removeKey
    refine (winnerFor_filter_keep ?_).trans hqwin
    intro x hx hxq
    simp [hxq, hq]
  have hpmem : e.pfx ∈ relevantKeys (withdrawPrefixes [e] s).2 :=
    mem_relevantKeys_of_pub hpub1
  have hqmem : q ∈ relevantKeys (withdrawPrefixes [e] s).2 :=
    mem_relevantKeys_of_pub hqpub1
  have hrne : ¬(sv.record = PubRecord.mk i.record.entries true) := by
    rw [hsync]
    intro hco
    have hd := congrArg PubRecord.deletePfx hco
    rw [hilive] at hd
    cases hd
  have htick := @tickKey_marker_write (withdrawPrefixes [e] s).2 e.pfx i sv
    hw1 hpub1 hstore1 hrne
  have hm2 : alookup e.pfx (tick (withdrawPrefixes [e] s).2).store =
      some (StoreVal.mk (PubRecord.mk i.record.entries true)
        (max i.version sv.version + 1) (withdrawPrefixes [e] s).2.keyTtl) := by
    rw [tick_store_lookup hh1 hpmem, htick.1]
  have hpub2 : alookup e.pfx (tick (withdrawPrefixes [e] s).2).pub =
      some (Intent.mk (PubRecord.mk i.record.entries true)
        (max i.version sv.version + 1)) := by
    rw [tick_pub_lookup hh1 hpmem, htick.2]
  have hqtick := @tickKey_frame (withdrawPrefixes [e] s).2 q wq svq
    hwq1 hqstore1 (by rw [hqsync, hqrec])
  have hq2store : alookup q (tick (withdrawPrefixes [e] s).2).store =
      some svq := by
    rw [tick_store_lookup hh1 hqmem, hqtick.1]
  have hq2pub : alookup q (tick (withdrawPrefixes [e] s).2).pub = some iq := by
    rw [tick_pub_lookup hh1 hqmem, hqtick.2, hp1]
    exact hqpub
  have hnd2 : keysNodup (tick (withdrawPrefixes [e] s).2).store :=
    tick_store_keysNodup hh1 hnd1
  have hqlive : iq.record.deletePfx = false := by
    rw [hqrec]
  refine ⟨StoreVal.mk (PubRecord.mk i.record.entries true)
    (max i.version sv.version + 1) (withdrawPrefixes [e] s).2.keyTtl,
    hm2, rfl, rfl, ?_, ?_, ?_⟩
  · exact Nat.lt_succ_of_le (Nat.le_max_right _ _)
  · refine elapseN_marker_gone rfl s.keyTtl _ _ hnd2 hpub2 hm2 ?_ ?_
    · show 1 ≤ (withdrawPrefixes [e] s).2.keyTtl
      rw [hk1]
      exact httl
    · show (withdrawPrefixes [e] s).2.keyTtl ≤ s.keyTtl
      rw [hk1]
  · exact elapseN_owned_kept hqlive s.keyTtl _ svq hnd2 hq2pub hq2store hqsync

/-- C6 witness: the withdraw-then-expire law evaluated on the
`PrefixWithdrawExpiry` scenario — withdrawing the first entry yields a
delete-marker at version 2 that expires after the key TTL, while the
second entry's key survives at version 1. -/
theorem claim6_witness :
    ∃ svm,
      alookup 1 (tick (withdrawPrefixes [entryP1] st6).2).store = some svm ∧
        svm.record.deletePfx = true ∧
        svm.record.entries = [entryP1] ∧
        1 < svm.version ∧
        alookup 1 (elapseN st6.keyTtl
          (tick (withdrawPrefixes [entryP1] st6).2)).store = none ∧
        ∃ svq', alookup 2 (elapseN st6.keyTtl
            (tick (withdrawPrefixes [entryP1] st6).2)).store = some svq' ∧
          svq'.record = PubRecord.mk [entryP2] false ∧ svq'.version = 1 :=
  @claim6_withdraw_expiry st6 entryP1
    (Intent.mk (PubRecord.mk [entryP1] false) 1)
    (StoreVal.mk (PubRecord.mk [entryP1] false) 1 2) 2
    (Intent.mk (PubRecord.mk [entryP2] false) 1)
    (StoreVal.mk (PubRecord.mk [entryP2] false) 1 2) entryP2
    (by unfold keysNodup; decide) (by decide) (by decide) (by decide)
    (by decide) (by decide) (by decide) (by decide) (by decide) (by decide)
    (by decide) (by decide) (by decide) (by decide) (by decide)

end OpenrPM
